import Mathlib

/-!
# Verification of the PerfectInformationGame move-selection code

This file gives a shallow embedding of `src/move_selection/mcts.py` and
`src/move_selection/mini_max.py` and proves/refutes the frozen claims about
them.

Modelling conventions:
* Python floats are modelled as `ℚ` (every value actually produced by the
  code is rational); `np.inf` sentinels for best-value tracking are modelled
  as `Option ℚ` with `none` standing for the infinite sentinel.
* `rollout_count` / `expansions` counters hold either a natural number or
  `np.inf` (set by `set_fully_expanded` and for terminal nodes), hence `ℕ∞`.
* A Python `children` attribute that may be `None` is modelled by a
  `hasChildren : Bool` flag together with a `List` that is empty whenever the
  flag is `false`.
* Fallible code (exceptions such as `TypeError`/`IndexError`, or explicit
  `raise`) is modelled with `Except`.
* Mutually recursive tree walks take an explicit `fuel` argument for
  termination; running out of fuel is a distinguished error that the Python
  code cannot produce, and concrete evaluations use ample fuel.
-/

/-- The interface of a `GameClass` as used by the move-selection code:
`is_over`, `get_winner`, `get_possible_moves`, `is_player_1_turn`. -/
structure Game (α : Type) where
  is_over : α → Bool
  get_winner : α → ℚ
  get_possible_moves : α → List α
  is_player_1_turn : α → Bool

/-- Errors raised by the merge code: a Python `IndexError` from
`clone.children[i]`, a `TypeError` from iterating `children` when it is
`None`, a `ValueError` from `max([])`/`min([])`, or fuel exhaustion (which
has no Python counterpart and never occurs with ample fuel). -/
inductive MergeErr where
  | indexError
  | typeErrorNoneChildren
  | valueErrorEmpty
  | fuelOut
deriving DecidableEq

/-- Python `max` over a list: `none` models the `ValueError` raised on an
empty list. -/
def pyMax : List ℚ → Option ℚ
  | [] => none
  | x :: xs => some (xs.foldl max x)

/-- Python `min` over a list: `none` models the `ValueError` raised on an
empty list. -/
def pyMin : List ℚ → Option ℚ
  | [] => none
  | x :: xs => some (xs.foldl min x)

/-- The state of a `RolloutNode` from `mcts.py`: position, `fully_expanded`
flag, `rollout_sum`, `rollout_count`, and the `children` attribute
(`hasChildren = false` models Python `children is None`).
The `parent` pointer is represented implicitly: a node's ancestors are the
nodes above it in the tree, and tree-walking functions thread updates
explicitly. -/
inductive RTree (α : Type) where
  | node (pos : α) (fullyExpanded : Bool) (rolloutSum : ℚ) (rolloutCount : ℕ∞)
      (hasChildren : Bool) (children : List (RTree α))

namespace RTree

variable {α : Type}

def pos : RTree α → α
  | .node p _ _ _ _ _ => p

def fullyExpanded : RTree α → Bool
  | .node _ fe _ _ _ _ => fe

def rolloutSum : RTree α → ℚ
  | .node _ _ s _ _ _ => s

def rolloutCount : RTree α → ℕ∞
  | .node _ _ _ c _ _ => c

def hasChildren : RTree α → Bool
  | .node _ _ _ _ hc _ => hc

def children : RTree α → List (RTree α)
  | .node _ _ _ _ _ ch => ch

/-- `RolloutNode.__init__`: a fresh node.  A terminal position is immediately
fully expanded with `rollout_sum = get_winner(position)` and
`rollout_count = np.inf`; otherwise both statistics start at zero and
`children` is `None`. -/
def newNode (G : Game α) (p : α) : RTree α :=
  if G.is_over p then .node p true (G.get_winner p) ⊤ false []
  else .node p false 0 0 false []

/-- `RolloutNode.count_expansions`: returns the `rollout_count` field (which
already holds `np.inf` for fully expanded nodes). -/
def count_expansions (t : RTree α) : ℕ∞ := t.rolloutCount

/-- `RolloutNode.get_evaluation`: `rollout_sum / rollout_count` for a node
that is not fully expanded (raising `ZeroDivisionError` when the count is
zero, and giving `0` when the count is `np.inf`, since `x / inf = 0.0`), and
the stored `rollout_sum` for a fully expanded node. -/
def get_evaluation (t : RTree α) : Except Unit ℚ :=
  if t.fullyExpanded then .ok t.rolloutSum
  else
    match t.rolloutCount with
    | ⊤ => .ok 0
    | (n : ℕ) => if n = 0 then .error () else .ok (t.rolloutSum / n)

/-- `RolloutNode.ensure_children`: if `children` is `None`, create a child
`RolloutNode` for every possible move. -/
def ensure_children (G : Game α) : RTree α → RTree α
  | .node p fe s c hc ch =>
    if hc then .node p fe s c hc ch
    else .node p fe s c true ((G.get_possible_moves p).map (newNode G))

/-- `RolloutNode.set_fully_expanded`: store the minimax evaluation in
`rollout_sum`, set `rollout_count` to `np.inf` and raise the flag. -/
def set_fully_expanded (v : ℚ) : RTree α → RTree α
  | .node p _ _ _ hc ch => .node p true v ⊤ hc ch

/-- The list `[clone.children[i] for clone in clones if clone.children is
not None]` from `AbstractNode.merge_children_clones`; Python raises
`IndexError` if some clone with children has fewer than `i + 1` of them. -/
def selectClones (i : ℕ) (clones : List (RTree α)) : Except MergeErr (List (RTree α)) :=
  (clones.filter (fun cl => cl.hasChildren)).mapM fun cl =>
    match cl.children[i]? with
    | some c => .ok c
    | none => .error .indexError

/-- Python `for i, clone in enumerate(clones): if clone.children is not
None: ... clones = clones[i+1:]`: find the first clone that has children and
return it together with the remaining clones; `none` if no clone has
children. -/
def firstWithChildren : List (RTree α) → Option (RTree α × List (RTree α))
  | [] => none
  | cl :: cls =>
    if cl.hasChildren then some (cl, cls) else firstWithChildren cls

mutual

/-- `RolloutNode.merge`: first update this node's statistics, then
reconcile the children via `merge_children_clones`.

`rollout_count` is updated by the sum, over the clones whose count exceeds
the *old* count, of their excess over the old count.  `rollout_sum` is then
updated by the sum, over the clones whose count exceeds the *already
updated* count (the `+=` on `rollout_count` has executed by the time the
second statement's filter runs), of their sum's excess over the old sum. -/
def merge : ℕ → RTree α → List (RTree α) → Except MergeErr (RTree α)
  | 0, _, _ => .error .fuelOut
  | fuel + 1, .node p fe s c hc ch, clones =>
    let newCount : ℕ∞ :=
      c + ((clones.filter (fun cl => c < cl.rolloutCount)).map
        (fun cl => cl.rolloutCount - c)).sum
    let newSum : ℚ :=
      s + ((clones.filter (fun cl => newCount < cl.rolloutCount)).map
        (fun cl => cl.rolloutSum - s)).sum
    merge_children_clones fuel (.node p fe newSum newCount hc ch) clones
termination_by fuel _ _ => (fuel, 2, 0)

/-- `AbstractNode.merge_children_clones` as used by `RolloutNode`: if this
node has no children, adopt the children of the first clone that has them
(dropping that clone and its predecessors from the clone list); if nobody
has children, stop.  Then merge every child with the corresponding children
of the clones that have children. -/
def merge_children_clones : ℕ → RTree α → List (RTree α) → Except MergeErr (RTree α)
  | fuel, .node p fe s c hc ch, clones =>
    if hc then mergeChildList fuel (.node p fe s c hc ch) 0 ch [] clones
    else
      match firstWithChildren clones with
      | none => .ok (.node p fe s c hc ch)
      | some (adopted, rest) =>
        mergeChildList fuel (.node p fe s c true adopted.children) 0
          adopted.children [] rest
termination_by fuel _ _ => (fuel, 1, 0)

/-- The loop `for i, child in enumerate(self.children): child.merge(...)`,
accumulating the merged children. -/
def mergeChildList : ℕ → RTree α → ℕ → List (RTree α) → List (RTree α) →
    List (RTree α) → Except MergeErr (RTree α)
  | _, .node p fe s c hc _, _, [], acc, _ => .ok (.node p fe s c hc acc.reverse)
  | 0, _, _, _ :: _, _, _ => .error .fuelOut
  | fuel + 1, t, i, child :: rest, acc, clones => do
    let sel ← selectClones i clones
    let child' ← merge fuel child sel
    mergeChildList (fuel + 1) t (i + 1) rest (child' :: acc) clones
termination_by fuel _ _ ch _ _ => (fuel, 0, ch.length)

end

end RTree

/-- Baseline node of claim C1: `rollout_count = 10`, `rollout_sum = 3`. -/
def mergeBase : RTree Unit := .node () false 3 10 false []

/-- Clone A of claim C1: `rollout_count = 15`, `rollout_sum = 5`. -/
def mergeCloneA : RTree Unit := .node () false 5 15 false []

/-- Clone B of claim C1: `rollout_count = 20`, `rollout_sum = 6`. -/
def mergeCloneB : RTree Unit := .node () false 6 20 false []

/-- Errors raised by `HeuristicNode.expand`: the explicit
`raise Exception` calls for a node that already has children or is
terminal/fully expanded, a `ValueError` from `max([])`/`min([])` on a
childless position, and an invalid tree path (no Python counterpart: Python
holds a direct reference to the node, our model walks down from the root).
-/
inductive ExpandErr where
  | alreadyHasChildren
  | terminal
  | valueErrorEmpty
  | badPath
deriving DecidableEq

/-- The state of a `HeuristicNode` from `mcts.py`: position,
`fully_expanded` flag, `heuristic`, `expansions` and the `children`
attribute (`hasChildren = false` models Python `children is None`).  The
`policy` vector only feeds the PUCT move prior, which none of the claims
about `HeuristicNode` touch, so it is carried as opaque data. -/
inductive HTree (α : Type) where
  | node (pos : α) (fullyExpanded : Bool) (heuristic : ℚ) (expansions : ℕ∞)
      (policy : List ℚ) (hasChildren : Bool) (children : List (HTree α))

namespace HTree

variable {α : Type}

def pos : HTree α → α
  | .node p _ _ _ _ _ _ => p

def fullyExpanded : HTree α → Bool
  | .node _ fe _ _ _ _ _ => fe

def heuristic : HTree α → ℚ
  | .node _ _ h _ _ _ _ => h

def expansions : HTree α → ℕ∞
  | .node _ _ _ e _ _ _ => e

def hasChildren : HTree α → Bool
  | .node _ _ _ _ _ hc _ => hc

def children : HTree α → List (HTree α)
  | .node _ _ _ _ _ _ ch => ch

def policyOf : HTree α → List ℚ
  | .node _ _ _ _ pol _ _ => pol

/-- `HeuristicNode.__init__` with explicit `network_call_results`
`(policy, heuristic)`: a terminal position is immediately fully expanded
with `heuristic = get_winner(position)`, `policy = None` and
`expansions = np.inf`; otherwise the policy and heuristic come from the
network-call result and `expansions` starts at zero. -/
def newNode (G : Game α) (p : α) (res : List ℚ × ℚ) : HTree α :=
  if G.is_over p then .node p true (G.get_winner p) ⊤ [] false []
  else .node p false res.2 0 res.1 false []

/-- `HeuristicNode.count_expansions`. -/
def count_expansions (t : HTree α) : ℕ∞ := t.expansions

/-- `HeuristicNode.get_evaluation`: the stored heuristic. -/
def get_evaluation (t : HTree α) : ℚ := t.heuristic

/-- `HeuristicNode.ensure_children` with the moves coming from
`get_possible_moves` and explicit network-call results: create one child per
`zip(moves, network_call_results)` entry and set `expansions = 1`.  (Only
called when `children is None`.) -/
def ensure_children (G : Game α) (results : List (List ℚ × ℚ)) :
    HTree α → HTree α
  | .node p fe h e pol hc ch =>
    if hc then .node p fe h e pol hc ch
    else
      .node p fe h 1 pol true
        (((G.get_possible_moves p).zip results).map fun mr => newNode G mr.1 mr.2)

/-- The condition of `HeuristicNode.expand`'s backup loop:
`(node.is_maximizing and critical_value > node.heuristic) or
(not node.is_maximizing and critical_value < node.heuristic)`. -/
def improves (G : Game α) (crit : ℚ) (t : HTree α) : Bool :=
  if G.is_player_1_turn t.pos then decide (crit > t.heuristic)
  else decide (crit < t.heuristic)

/-- The body of `HeuristicNode.expand` at the node itself: raise if the node
already has children, raise if it is terminal/fully expanded (the
`self.children is None` re-check after `ensure_children` can never fire
because `ensure_children` always assigns a list), create the children, and
set this node's heuristic to the max (if maximizing) or min of the
children's heuristics (`ValueError` on an empty children list).  Returns the
new node together with `critical_value`. -/
def expandLocal (G : Game α) (results : List (List ℚ × ℚ)) (t : HTree α) :
    Except ExpandErr (HTree α × ℚ) :=
  if t.hasChildren then .error .alreadyHasChildren
  else if t.fullyExpanded then .error .terminal
  else
    match (if G.is_player_1_turn (ensure_children G results t).pos
           then pyMax ((ensure_children G results t).children.map heuristic)
           else pyMin ((ensure_children G results t).children.map heuristic)) with
    | none => .error .valueErrorEmpty
    | some crit =>
      .ok (.node (ensure_children G results t).pos
        (ensure_children G results t).fullyExpanded crit
        (ensure_children G results t).expansions
        (policyOf (ensure_children G results t))
        (ensure_children G results t).hasChildren
        (ensure_children G results t).children, crit)

/-- `HeuristicNode.expand` on the node at `path` (a list of child indices
from the root): expand that node, then walk the parent chain back to the
root.  Every ancestor's `expansions` is incremented; an ancestor's
`heuristic` is overwritten with `critical_value` as long as the propagation
is still live and the value beats that ancestor's current heuristic, and
propagation dies at the first ancestor it does not beat.  The returned
`Bool` is the liveness of the propagation when it reaches the root. -/
def expand (G : Game α) (results : List (List ℚ × ℚ)) :
    HTree α → List ℕ → Except ExpandErr (HTree α × ℚ × Bool)
  | t, [] => do
    let (t', crit) ← expandLocal G results t
    return (t', crit, true)
  | .node p fe h e pol hc ch, i :: rest =>
    match ch[i]? with
    | none => .error .badPath
    | some child => do
      let (child', crit, live) ← expand G results child rest
      if live && improves G crit (.node p fe h e pol hc ch) then
        return (.node p fe crit (e + 1) pol hc (ch.set i child'), crit, true)
      else
        return (.node p fe h (e + 1) pol hc (ch.set i child'), crit, false)

/-- `HeuristicNode`'s `merge_children_clones` uses the same
`AbstractNode.merge_children_clones` code as `RolloutNode`; the heuristic
variant of the clone-selection comprehension. -/
def selectClonesH (i : ℕ) (clones : List (HTree α)) : Except MergeErr (List (HTree α)) :=
  (clones.filter (fun cl => cl.hasChildren)).mapM fun cl =>
    match cl.children[i]? with
    | some c => .ok c
    | none => .error .indexError

/-- `firstWithChildren` for heuristic nodes. -/
def firstWithChildrenH : List (HTree α) → Option (HTree α × List (HTree α))
  | [] => none
  | cl :: cls =>
    if cl.hasChildren then some (cl, cls) else firstWithChildrenH cls

mutual

/-- `HeuristicNode.merge`: first reconcile children via
`merge_children_clones`, then re-derive `heuristic` as the max/min over
`self.children` and `expansions` as `1 + sum(child.expansions)`.  Iterating
`self.children` when it is `None` raises a `TypeError` (`hasChildren =
false`), and `max`/`min` of an empty list raises a `ValueError`. -/
def merge (G : Game α) : ℕ → HTree α → List (HTree α) → Except MergeErr (HTree α)
  | 0, _, _ => .error .fuelOut
  | fuel + 1, t, clones => do
    let t1 ← merge_children_clones G fuel t clones
    if t1.hasChildren then
      match (if G.is_player_1_turn t1.pos then pyMax (t1.children.map heuristic)
             else pyMin (t1.children.map heuristic)) with
      | none => .error .valueErrorEmpty
      | some h =>
        .ok (.node t1.pos t1.fullyExpanded h (1 + (t1.children.map expansions).sum)
          (policyOf t1) t1.hasChildren t1.children)
    else .error .typeErrorNoneChildren
termination_by fuel _ _ => (fuel, 2, 0)

/-- `AbstractNode.merge_children_clones` for `HeuristicNode`. -/
def merge_children_clones (G : Game α) :
    ℕ → HTree α → List (HTree α) → Except MergeErr (HTree α)
  | fuel, .node p fe h e pol hc ch, clones =>
    if hc then mergeChildList G fuel (.node p fe h e pol hc ch) 0 ch [] clones
    else
      match firstWithChildrenH clones with
      | none => .ok (.node p fe h e pol hc ch)
      | some (adopted, rest) =>
        mergeChildList G fuel (.node p fe h e pol true adopted.children) 0
          adopted.children [] rest
termination_by fuel _ _ => (fuel, 1, 0)

/-- The `for i, child in enumerate(self.children)` loop of
`merge_children_clones` for `HeuristicNode`. -/
def mergeChildList (G : Game α) : ℕ → HTree α → ℕ → List (HTree α) → List (HTree α) →
    List (HTree α) → Except MergeErr (HTree α)
  | _, .node p fe h e pol hc _, _, [], acc, _ => .ok (.node p fe h e pol hc acc.reverse)
  | 0, _, _, _ :: _, _, _ => .error .fuelOut
  | fuel + 1, t, i, child :: rest, acc, clones => do
    let sel ← selectClonesH i clones
    let child' ← merge G fuel child sel
    mergeChildList G (fuel + 1) t (i + 1) rest (child' :: acc) clones
termination_by fuel _ _ ch _ _ => (fuel, 0, ch.length)

end

/-- Walk to the node at a path of child indices. -/
def getNodeAt : HTree α → List ℕ → Option (HTree α)
  | t, [] => some t
  | t, i :: rest =>
    match t.children[i]? with
    | none => none
    | some c => getNodeAt c rest

end HTree

namespace RTree

/-- `RolloutNode.expand` applied to the node at `path` (child indices from
the root): the batch of `rollout_batch_size` random rollouts is abstracted
by its total result `r` (the sum of `get_winner` over the batch's final
positions); the node and every one of its ancestors up to the root add `r`
to `rollout_sum` and `rollout_batch_size` to `rollout_count`.  The source
performs no state checks whatsoever: it is total. -/
def expand (r : ℚ) (batch : ℕ) : RTree α → List ℕ → RTree α
  | .node p fe s c hc ch, [] => .node p fe (s + r) (c + batch) hc ch
  | .node p fe s c hc ch, i :: rest =>
    match ch[i]? with
    | none => .node p fe (s + r) (c + batch) hc ch
    | some child => .node p fe (s + r) (c + batch) hc (ch.set i (expand r batch child rest))

/-- Walk to the node at a path of child indices. -/
def getNodeAt : RTree α → List ℕ → Option (RTree α)
  | t, [] => some t
  | t, i :: rest =>
    match t.children[i]? with
    | none => none
    | some c => getNodeAt c rest

end RTree

/-- A one-position game used for concrete evaluations: never over, one
self-move, player 1 to move. -/
def G1 : Game Unit :=
  ⟨fun _ => false, fun _ => 0, fun _ => [()], fun _ => true⟩

/-- A childless, unexpanded `HeuristicNode`. -/
def hLeaf : HTree Unit := .node () false 0 0 [] false []

/-- A `HeuristicNode` whose single child is `hLeaf`. -/
def hRootEx : HTree Unit := .node () false 0 1 [] true [hLeaf]

/-- A clone of `hLeaf` that has advanced its statistics. -/
def hCloneLeaf : HTree Unit := .node () false (1/2) 3 [] false []

/-- A clone of `hRootEx` whose child is `hCloneLeaf`. -/
def hCloneRoot : HTree Unit := .node () false (1/2) 4 [] true [hCloneLeaf]

/-- The result of the first merge of claim C1's example. -/
def mergeMerged : RTree Unit := .node () false 3 25 false []

/-- A terminal (fully expanded) `HeuristicNode`. -/
def hTerminal : HTree Unit := .node () true 1 ⊤ [] false []

/-- The observable state of an `AbstractNode` child as read by
`choose_best_node`: the `fully_expanded` flag, `get_evaluation()` and
`count_expansions()`.  In the branch modelled below (node not fully
expanded) a fully expanded child's count is never read, so the count can be
carried as a natural number. -/
structure NodeView where
  fullyExpanded : Bool
  eval : ℚ
  count : ℕ

/-- The `else` branch of `AbstractNode.choose_best_node` (taken when the
node itself is not fully expanded), which the spec's Best-Move Policy
sentence describes: per child, an unsolved child contributes its own
`count_expansions()`; a solved child whose evaluation is the worst outcome
for the mover contributes `0`; any other solved child contributes
`self.count_expansions() * (1 - winning_chance)` with
`winning_chance = self.get_evaluation() * optimal_value / 2 + 0.5`.
(The solved-node branch of `choose_best_node` is outside every claim.) -/
def choose_best_weights (maximizing : Bool) (selfEval : ℚ) (selfCount : ℕ)
    (children : List NodeView) : List ℚ :=
  let optimal : ℚ := if maximizing then 1 else -1
  children.map fun ch =>
    if ch.fullyExpanded = false then (ch.count : ℚ)
    else if ch.eval = -optimal then 0
    else (selfCount : ℚ) * (1 - (selfEval * optimal / 2 + 1 / 2))

/-- `distribution = np.array(distribution) / sum(distribution)` from
`choose_best_node` (Python produces `nan` entries when the sum is zero;
field division by zero in `ℚ` yields `0` instead, and no claim touches that
corner). -/
def normalize_weights (ws : List ℚ) : List ℚ := ws.map (fun w => w / ws.sum)

/-- Modelled from claim C2's words, for comparison with
`choose_best_weights`: weight 0 for a solved child losing for the mover;
for every other child (solved non-losing or unsolved), that child's own
`expansion_count()` scaled down by the winning-chance factor
`(evaluation*sign + 1)/2` when the position already looks favorable. -/
def claimed_best_weights (maximizing : Bool) (selfEval : ℚ)
    (children : List NodeView) : List ℚ :=
  let optimal : ℚ := if maximizing then 1 else -1
  let scale : ℚ := if selfEval * optimal > 0 then (selfEval * optimal + 1) / 2 else 1
  children.map fun ch =>
    if ch.fullyExpanded = true ∧ ch.eval = -optimal then 0
    else (ch.count : ℚ) * scale

/-- Python float values as used by `mini_max.py`: rationals together with
the `np.inf` / `-np.inf` sentinels, ordered in the evident way. -/
abbrev PyF : Type := WithBot (WithTop ℚ)

/-- Embed a rational into `PyF`. -/
def pyVal (q : ℚ) : PyF := ((q : WithTop ℚ) : PyF)

/-- The running maximum of Python's `for` loop, starting from `b`. -/
def foldMax (b : PyF) (vs : List PyF) : PyF :=
  vs.foldl (fun acc h => if acc < h then h else acc) b

/-- The running minimum of Python's `for` loop, starting from `b`. -/
def foldMin (b : PyF) (vs : List PyF) : PyF :=
  vs.foldl (fun acc h => if h < acc then h else acc) b

namespace MiniMax

variable {α : Type}

mutual

/-- `MiniMax.evaluate_position_recursive`: terminal positions return the
winner, depth 0 returns the heuristic, and otherwise the children are
scanned with `best_heuristic` starting at `∓np.inf`; a child whose value
beats the current best *and* the parent's `value_to_beat` short-circuits the
scan (the prune), otherwise it becomes the new best. -/
def evaluate_position_recursive (G : Game α) (hf : α → ℚ) :
    ℕ → Bool → PyF → α → PyF
  | depth, is_maximizing, value_to_beat, p =>
    if G.is_over p then pyVal (G.get_winner p)
    else
      match depth with
      | 0 => pyVal (hf p)
      | d + 1 =>
        evalLoop G hf d is_maximizing value_to_beat
          (if is_maximizing then (⊥ : PyF) else (⊤ : PyF))
          (G.get_possible_moves p)
termination_by depth _ _ _ => (depth, 1, 0)

/-- The `for child_position in ...` loop of `evaluate_position_recursive`,
threading `best_heuristic` and early-returning on a prune. -/
def evalLoop (G : Game α) (hf : α → ℚ) (d : ℕ) (is_maximizing : Bool)
    (value_to_beat : PyF) : PyF → List α → PyF
  | best, [] => best
  | best, c :: rest =>
    let h := evaluate_position_recursive G hf d (!is_maximizing) best c
    if is_maximizing then
      if best < h then
        if value_to_beat < h then h
        else evalLoop G hf d is_maximizing value_to_beat h rest
      else evalLoop G hf d is_maximizing value_to_beat best rest
    else
      if h < best then
        if h < value_to_beat then h
        else evalLoop G hf d is_maximizing value_to_beat h rest
      else evalLoop G hf d is_maximizing value_to_beat best rest
termination_by _ cs => (d, 2, cs.length)

end

/-- The loop of `MiniMax.choose_move`: track the best move and value; note
that each child is searched with `value_to_beat = best_heuristic`. -/
def choose_move_loop (G : Game α) (hf : α → ℚ) (d : ℕ) (is_maximizing : Bool) :
    Option α → PyF → List α → Option α × PyF
  | bm, best, [] => (bm, best)
  | bm, best, m :: rest =>
    let h := evaluate_position_recursive G hf d (!is_maximizing) best m
    if (is_maximizing && decide (best < h)) || (!is_maximizing && decide (h < best)) then
      choose_move_loop G hf d is_maximizing (some m) h rest
    else choose_move_loop G hf d is_maximizing bm best rest

/-- `MiniMax.choose_move` with `return_heuristic=True`: raises on a
finished game; otherwise scans the moves with `best_heuristic` starting at
`∓np.inf` and returns the chosen move with its value.  (`self.depth - 1` is
the ℕ-truncated subtraction; the claim's scope is a finite depth ≥ 1.) -/
def choose_move (G : Game α) (hf : α → ℚ) (depth : ℕ) (p : α) :
    Except Unit (Option α × PyF) :=
  if G.is_over p then .error ()
  else
    let is_maximizing := G.is_player_1_turn p
    .ok (choose_move_loop G hf (depth - 1) is_maximizing none
      (if is_maximizing then (⊥ : PyF) else (⊤ : PyF))
      (G.get_possible_moves p))

/-- Modelled from the spec's words for claim C5: the *unpruned* full-depth
minimax search of the same depth with the same heuristic, alternating
maximizing/minimizing exactly as the pruned search does. -/
def unpruned (G : Game α) (hf : α → ℚ) : ℕ → Bool → α → PyF
  | depth, is_maximizing, p =>
    if G.is_over p then pyVal (G.get_winner p)
    else
      match depth with
      | 0 => pyVal (hf p)
      | d + 1 =>
        let vs := (G.get_possible_moves p).map (unpruned G hf d (!is_maximizing))
        if is_maximizing then foldMax (⊥ : PyF) vs else foldMin (⊤ : PyF) vs
termination_by depth _ _ => depth

/-- Modelled from the spec's words for claim C5: `choose_move` over the
unpruned search values. -/
def choose_move_unpruned_loop (G : Game α) (hf : α → ℚ) (d : ℕ)
    (is_maximizing : Bool) : Option α → PyF → List α → Option α × PyF
  | bm, best, [] => (bm, best)
  | bm, best, m :: rest =>
    let h := unpruned G hf d (!is_maximizing) m
    if (is_maximizing && decide (best < h)) || (!is_maximizing && decide (h < best)) then
      choose_move_unpruned_loop G hf d is_maximizing (some m) h rest
    else choose_move_unpruned_loop G hf d is_maximizing bm best rest

/-- Modelled from the spec's words for claim C5: the unpruned counterpart
of `choose_move`. -/
def choose_move_unpruned (G : Game α) (hf : α → ℚ) (depth : ℕ) (p : α) :
    Except Unit (Option α × PyF) :=
  if G.is_over p then .error ()
  else
    let is_maximizing := G.is_player_1_turn p
    .ok (choose_move_unpruned_loop G hf (depth - 1) is_maximizing none
      (if is_maximizing then (⊥ : PyF) else (⊤ : PyF))
      (G.get_possible_moves p))

end MiniMax

namespace HTree

/-- All the strict ancestors of the expanded node from level `k` down to
the node's parent satisfy the backup loop's improvement condition (the
condition is evaluated against each ancestor's *original* heuristic, which
is exactly what the loop does, since an updated ancestor's heuristic is
`crit` itself when the next comparison happens). -/
def improvesAlong {α : Type} (G : Game α) (crit : ℚ) (t : HTree α)
    (path : List ℕ) (k : ℕ) : Prop :=
  ∀ j, k ≤ j → j < path.length → ∀ m, getNodeAt t (path.take j) = some m →
    improves G crit m = true

/-- The result of expanding `hRootEx`'s leaf child with network value 2. -/
def hRootExExpanded : HTree Unit :=
  .node () false 2 2 [] true
    [.node () false 2 1 [] true [.node () false 2 0 [] false []]]

end HTree

namespace RTree

variable {α : Type}

/-- Whether `RolloutNode.get_puct_heuristic_for_child`'s exploration term
`c * sqrt(log(self.rollout_count) / child.rollout_count)` is `np.inf`: the
code returns `np.inf` outright when the child's count is zero, and
`log(np.inf) = inf` makes the term infinite when the node's own count is
`np.inf`.  The finite (real-valued, irrational) magnitude of the term is
abstracted by the parameter `f` of `choose_expansion_node` below; none of
the claims depend on it. -/
def puctIsInf (selfCount childCount : ℕ∞) : Bool :=
  decide (childCount = 0) || decide (selfCount = ⊤)

/-- `get_evaluation` together with a flag recording the
division-by-zero (`ZeroDivisionError`) case. -/
def evalFlag (t : RTree α) : ℚ × Bool :=
  match get_evaluation t with
  | .ok v => (v, false)
  | .error _ => (0, true)

/-- Outcome of the `for i, child in enumerate(self.children)` loop of
`AbstractNode.choose_expansion_node`: an early return because a fully
expanded child already attains the optimal value; an early return of a
child whose exploration score is infinite; or loop completion with the
best (unexpanded) child found, if any.  The `Bool` accumulates whether any
evaluation was read with a zero rollout count. -/
inductive ScanOut (α : Type) where
  | solvedOptimal (flag : Bool)
  | infChild (i : ℕ) (child : RTree α) (flag : Bool)
  | finished (best : Option (ℕ × RTree α)) (flag : Bool)

/-- `combined_heuristic = child.get_evaluation() ± puct_heuristic`, with
the finite exploration magnitude abstracted by `f`. -/
def combOf (f : ℕ∞ → ℕ∞ → ℚ) (maximizing : Bool) (selfCount : ℕ∞)
    (child : RTree α) : ℚ :=
  if maximizing then (evalFlag child).1 + f selfCount child.rolloutCount
  else (evalFlag child).1 - f selfCount child.rolloutCount

/-- `combined_heuristic > best_heuristic` (resp. `<` when minimizing),
where `best_heuristic` starts at `∓np.inf` so the first candidate always
wins. -/
def betterThan (maximizing : Bool) (comb : ℚ) :
    Option (ℕ × RTree α × ℚ) → Bool
  | none => true
  | some b => if maximizing then decide (b.2.2 < comb) else decide (comb < b.2.2)

/-- The child-scanning loop of `AbstractNode.choose_expansion_node`
(lines 357-382): fully expanded children are skipped unless their
evaluation is already optimal (early exit); a child with infinite
exploration score is returned before its evaluation is read; otherwise the
child's evaluation plus/minus the exploration term competes for the best
combined heuristic. -/
def scanChildren (f : ℕ∞ → ℕ∞ → ℚ) (maximizing : Bool) (selfCount : ℕ∞)
    (optimal : ℚ) : ℕ → Option (ℕ × RTree α × ℚ) → Bool → List (RTree α) → ScanOut α
  | _, best, flag, [] => .finished (best.map fun b => (b.1, b.2.1)) flag
  | i, best, flag, child :: rest =>
    if child.fullyExpanded then
      if child.rolloutSum = optimal then .solvedOptimal flag
      else scanChildren f maximizing selfCount optimal (i + 1) best flag rest
    else if puctIsInf selfCount child.rolloutCount then .infChild i child flag
    else
      scanChildren f maximizing selfCount optimal (i + 1)
        (if betterThan maximizing (combOf f maximizing selfCount child) best
         then some (i, child, combOf f maximizing selfCount child) else best)
        (flag || (evalFlag child).2) rest

/-- Replace the `i`-th child. -/
def setChild (i : ℕ) (c : RTree α) : RTree α → RTree α
  | .node p fe s cnt hc ch => .node p fe s cnt hc (ch.set i c)

/-- `AbstractNode.choose_expansion_node` for `RolloutNode`s, driven by fuel
(the mutual recursion with the parent in Python is modelled by restarting
the current node after a child's subtree reports completion, which is
exactly what `self.parent.choose_expansion_node()` does in the child's
frame).  The result is the updated tree, the path of the node to expand
(`none` when this node is or became fully expanded, which at the root means
the whole tree is solved), and the division-flag; `none` overall is fuel
exhaustion or the `ValueError` Python would raise on `max([])`/`min([])`
for a childless position (neither occurs in real runs). -/
def choose_expansion_node (f : ℕ∞ → ℕ∞ → ℚ) (G : Game α) :
    ℕ → RTree α → Option (RTree α × Option (List ℕ) × Bool)
  | 0, _ => none
  | fuel + 1, t =>
    if t.fullyExpanded then some (t, none, false)
    else if t.count_expansions = 0 then some (t, some [], false)
    else
      match scanChildren f (G.is_player_1_turn (ensure_children G t).pos)
          (ensure_children G t).count_expansions
          (if G.is_player_1_turn (ensure_children G t).pos then (1 : ℚ) else -1)
          0 none false (ensure_children G t).children with
      | .solvedOptimal flag =>
        some (set_fully_expanded
          (if G.is_player_1_turn (ensure_children G t).pos then (1 : ℚ) else -1)
          (ensure_children G t), none, flag)
      | .infChild i _ flag => some (ensure_children G t, some [i], flag)
      | .finished none flag =>
        match (if G.is_player_1_turn (ensure_children G t).pos
               then pyMax (((ensure_children G t).children.map evalFlag).map Prod.fst)
               else pyMin (((ensure_children G t).children.map evalFlag).map Prod.fst)) with
        | none => none
        | some mv =>
          some (set_fully_expanded mv (ensure_children G t), none,
            flag || ((ensure_children G t).children.map evalFlag).any Prod.snd)
      | .finished (some (bi, bc)) flag =>
        match choose_expansion_node f G fuel bc with
        | none => none
        | some (bc', some pth, fl2) =>
          some (setChild bi bc' (ensure_children G t), some (bi :: pth), flag || fl2)
        | some (bc', none, fl2) =>
          match choose_expansion_node f G fuel (setChild bi bc' (ensure_children G t)) with
          | none => none
          | some (t2, r, fl3) => some (t2, r, flag || fl2 || fl3)

/-- The max (if maximizing) or min of the children's evaluations, as the
claims phrase it. -/
def minimaxOfChildren (G : Game α) (t : RTree α) : ℚ :=
  match (if G.is_player_1_turn t.pos then pyMax (t.children.map rolloutSum)
         else pyMin (t.children.map rolloutSum)) with
  | none => 0
  | some v => v

/-- One iteration of the MCTS driver loop (`MCTS.choose_move` lines
256-262): select an expansion node and, if there is one, expand it; the
batch's total rollout result `r` and the batch size `b` abstract the random
rollouts. -/
def mctsStep (f : ℕ∞ → ℕ∞ → ℚ) (G : Game α) (fuel : ℕ) (r : ℚ) (b : ℕ)
    (t : RTree α) : RTree α :=
  match choose_expansion_node f G fuel t with
  | none => t
  | some (t', none, _) => t'
  | some (t', some pth, _) => expand r b t' pth

/-- Iterate `mctsStep` over a list of (fuel, rollout result, batch size)
triples. -/
def runSteps (f : ℕ∞ → ℕ∞ → ℚ) (G : Game α) :
    List (ℕ × ℚ × ℕ) → RTree α → RTree α
  | [], t => t
  | (fuel, r, b) :: rest, t => runSteps f G rest (mctsStep f G fuel r b t)

end RTree

/-- The exact minimax value of a game position: the winner at a terminal
position, and the `max`/`min` over the moves' minimax values at a position
where player 1 / player 2 is to move.  (A derivation exists exactly for
positions whose game tree is well-founded.) -/
inductive MinimaxVal {α : Type} (G : Game α) : α → ℚ → Prop where
  | term (p : α) (h : G.is_over p = true) : MinimaxVal G p (G.get_winner p)
  | maxNode (p : α) (vs : List ℚ) (v : ℚ)
      (hover : G.is_over p = false) (hturn : G.is_player_1_turn p = true)
      (hlen : vs.length = (G.get_possible_moves p).length)
      (hvals : ∀ i (h1 : i < (G.get_possible_moves p).length) (h2 : i < vs.length),
        MinimaxVal G ((G.get_possible_moves p).get ⟨i, h1⟩) (vs.get ⟨i, h2⟩))
      (hmax : pyMax vs = some v) : MinimaxVal G p v
  | minNode (p : α) (vs : List ℚ) (v : ℚ)
      (hover : G.is_over p = false) (hturn : G.is_player_1_turn p = false)
      (hlen : vs.length = (G.get_possible_moves p).length)
      (hvals : ∀ i (h1 : i < (G.get_possible_moves p).length) (h2 : i < vs.length),
        MinimaxVal G ((G.get_possible_moves p).get ⟨i, h1⟩) (vs.get ⟨i, h2⟩))
      (hmin : pyMin vs = some v) : MinimaxVal G p v

/-- The reachability invariant of the rollout search tree: a node that is
not fully expanded sits on a non-terminal position; a fully expanded node
stores the exact minimax value of its position in `rollout_sum`; a node
with children has one child per possible move, in order, and a nonzero
rollout count (children are only ever created after the first rollout); a
node without children has an empty child list. -/
inductive TreeInv {α : Type} (G : Game α) : RTree α → Prop where
  | mk (p : α) (fe : Bool) (s : ℚ) (c : ℕ∞) (hc : Bool) (ch : List (RTree α))
      (h1 : fe = false → G.is_over p = false)
      (h2 : fe = true → MinimaxVal G p s)
      (h3 : hc = true → ch.map RTree.pos = G.get_possible_moves p ∧ c ≠ 0)
      (h4 : hc = false → ch = [])
      (h5 : ∀ i (hi : i < ch.length), TreeInv G (ch.get ⟨i, hi⟩)) :
      TreeInv G (.node p fe s c hc ch)

/-- A two-position game for concrete evaluations: position 0 has the single
move 1; every other position is terminal with winner 1; player 1 to move. -/
def G2 : Game ℕ :=
  ⟨fun p => decide (p ≠ 0), fun _ => 1, fun p => if p = 0 then [1] else [],
    fun _ => true⟩

/-- A rollout tree on `G2`: the root (position 0, one rollout) with its
single child solved (terminal position 1, value 1). -/
def rRootEx : RTree ℕ := .node 0 false 1 1 true [.node 1 true 1 ⊤ false []]

/-- A rollout tree on `G1` whose single child has never been visited. -/
def rFreshEx : RTree Unit := .node () false 0 1 true [.node () false 0 0 false []]

/-! ## End of definitions; theorems follow. -/

namespace RTree

/-- C1: refuted.  Merging clones `(count 15, sum 5)` and `(count 20, sum 6)`
into the baseline `(count 10, sum 3)` yields `count = 25` as the claim says,
but `rollout_sum` stays `3` instead of becoming `8`: the `+=` on
`rollout_count` has already executed when the sum-update's filter
`clone.rollout_count > self.rollout_count` runs, so no clone's count exceeds
the new count and the sum contribution is always empty. -/
theorem rollout_merge_example_sum_not_additive :
    merge 3 mergeBase [mergeCloneA, mergeCloneB]
      = .ok (.node () false 3 25 false []) ∧ (3 : ℚ) ≠ 8 := by
  constructor
  · simp +decide [merge, merge_children_clones, mergeChildList, firstWithChildren,
      mergeBase, mergeCloneA, mergeCloneB, rolloutCount, rolloutSum, hasChildren]
  · norm_num

end RTree

/-- C7: refuted on the code as written.  `HeuristicNode.merge` on a node
with one unexpanded child recurses into that child, whose own merge then
iterates `self.children` while it is `None`: a `TypeError`, so no node's
value or expansion count is ever re-derived.  (Any finite heuristic tree has
such leaves, so every invocation of `HeuristicNode.merge` dies this way.) -/
theorem heuristic_merge_raises_at_childless_leaf :
    HTree.merge G1 5 hRootEx [hCloneRoot] = .error .typeErrorNoneChildren := by
  simp +decide [HTree.merge, HTree.merge_children_clones, HTree.mergeChildList,
    HTree.firstWithChildrenH, HTree.selectClonesH, hRootEx, hCloneRoot, hLeaf,
    hCloneLeaf, HTree.hasChildren, HTree.children, HTree.heuristic,
    HTree.expansions, HTree.pos, HTree.fullyExpanded, HTree.policyOf,
    pyMax, pyMin, G1, bind, Except.bind, pure, Except.pure, List.mapM,
    List.mapM.loop]

/-- C8: the Rollout half of merge idempotence holds on claim C1's example
(after the first merge the node's count dominates every clone's count, so a
second merge with the same clones changes nothing), but the Heuristic half
is refuted: already the first merge of a childless node raises a `TypeError`
(iterating `children = None`), so there is no merge result to be left
unchanged. -/
theorem merge_idempotence_example :
    RTree.merge 3 mergeMerged [mergeCloneA, mergeCloneB] = .ok mergeMerged ∧
    HTree.merge G1 5 hLeaf [hCloneLeaf] = .error .typeErrorNoneChildren := by
  constructor
  · simp +decide [RTree.merge, RTree.merge_children_clones, RTree.mergeChildList,
      RTree.firstWithChildren, mergeMerged, mergeCloneA, mergeCloneB,
      RTree.rolloutCount, RTree.rolloutSum, RTree.hasChildren]
  · simp +decide [HTree.merge, HTree.merge_children_clones, HTree.mergeChildList,
      HTree.firstWithChildrenH, HTree.selectClonesH, hLeaf, hCloneLeaf,
      HTree.hasChildren, HTree.children, HTree.heuristic, HTree.expansions,
      HTree.pos, HTree.fullyExpanded, HTree.policyOf, pyMax, pyMin, G1,
      bind, Except.bind, pure, Except.pure, List.mapM, List.mapM.loop]

/-- C9: refuted for the Rollout variant.  `RolloutNode.expand` performs no
state check at all: called on a node that is terminal (hence fully
expanded), it silently adds the rollout result to `rollout_sum` (and the
batch size to `rollout_count`) instead of raising. -/
theorem rollout_expand_terminal_no_raise :
    RTree.expand 1 1 (.node () true 1 ⊤ false []) ([] : List ℕ)
        = .node () true 2 ⊤ false [] ∧
    (RTree.node () true 2 ⊤ false [] : RTree Unit) ≠ .node () true 1 ⊤ false [] := by
  constructor
  · simp [RTree.expand]
    norm_num
  · intro h
    simp only [RTree.node.injEq] at h
    norm_num at h

/-- C9 amended: only `HeuristicNode.expand` checks for misuse, raising on a
node that already has children and on a fully expanded (in particular
terminal) node; `RolloutNode.expand` performs no check and silently updates
the rollout statistics of the node (and, along a path, of its ancestors). -/
theorem expand_misuse_guards {α : Type} (G : Game α) (results : List (List ℚ × ℚ))
    (t : HTree α) :
    (t.hasChildren = true → HTree.expand G results t [] = .error .alreadyHasChildren) ∧
    (t.hasChildren = false → t.fullyExpanded = true →
      HTree.expand G results t [] = .error .terminal) ∧
    (∀ (r : ℚ) (b : ℕ) (rt : RTree α),
      RTree.expand r b rt []
        = .node rt.pos rt.fullyExpanded (rt.rolloutSum + r) (rt.rolloutCount + b)
            rt.hasChildren rt.children) := by
  refine ⟨fun h => ?_, fun h h2 => ?_, fun r b rt => ?_⟩
  · simp [HTree.expand, HTree.expandLocal, h, bind, Except.bind]
  · simp [HTree.expand, HTree.expandLocal, h, h2, bind, Except.bind]
  · cases rt
    simp [RTree.expand, RTree.pos, RTree.fullyExpanded, RTree.rolloutSum,
      RTree.rolloutCount, RTree.hasChildren, RTree.children]

/-- Witness for `expand_misuse_guards`: the two heuristic guard clauses
fire on `hRootEx` (which has children) and `hTerminal` (fully expanded). -/
theorem expand_misuse_guards_witness :
    hRootEx.hasChildren = true ∧ hTerminal.hasChildren = false ∧
    hTerminal.fullyExpanded = true ∧
    HTree.expand G1 [] hRootEx [] = .error .alreadyHasChildren ∧
    HTree.expand G1 [] hTerminal [] = .error .terminal :=
  ⟨rfl, rfl, rfl, (expand_misuse_guards G1 [] hRootEx).1 rfl,
    (expand_misuse_guards G1 [] hTerminal).2.1 rfl rfl⟩

/-- C2: refuted as stated.  For a maximizing node with evaluation `1/2`
(favorable), own count 10 and a single unsolved child with count 4, the
code's weight is the child's count `4`, unscaled, while the claim's
winning-chance scaling `(evaluation*sign + 1)/2 = 3/4` would give `3`. -/
theorem choose_best_weights_counterexample :
    choose_best_weights true (1/2) 10 [⟨false, 0, 4⟩]
      ≠ claimed_best_weights true (1/2) [⟨false, 0, 4⟩] := by
  simp [choose_best_weights, claimed_best_weights]
  norm_num

/-- C2 amended: in the non-fully-expanded branch of `choose_best_node`, a
solved child losing for the mover gets weight 0; an unsolved child gets its
own `count_expansions()`, unscaled; a solved non-losing child gets the
*parent's* `count_expansions()` times `1 - winning_chance` where
`winning_chance = (evaluation*sign + 1)/2` (so the weight shrinks as the
position looks more favorable); the weights are then normalized by their
sum. -/
theorem choose_best_weights_spec (maximizing : Bool) (selfEval : ℚ) (selfCount : ℕ)
    (children : List NodeView) (optimal : ℚ)
    (hopt : optimal = if maximizing then 1 else -1)
    (i : ℕ) (hi : i < children.length)
    (hw : i < (choose_best_weights maximizing selfEval selfCount children).length) :
    ((children.get ⟨i, hi⟩).fullyExpanded = false →
      (choose_best_weights maximizing selfEval selfCount children).get ⟨i, hw⟩
        = ((children.get ⟨i, hi⟩).count : ℚ)) ∧
    ((children.get ⟨i, hi⟩).fullyExpanded = true →
      (children.get ⟨i, hi⟩).eval = -optimal →
      (choose_best_weights maximizing selfEval selfCount children).get ⟨i, hw⟩ = 0) ∧
    ((children.get ⟨i, hi⟩).fullyExpanded = true →
      (children.get ⟨i, hi⟩).eval ≠ -optimal →
      (choose_best_weights maximizing selfEval selfCount children).get ⟨i, hw⟩
        = (selfCount : ℚ) * (1 - (selfEval * optimal + 1) / 2)) := by
  subst hopt
  have hmap : (choose_best_weights maximizing selfEval selfCount children).get ⟨i, hw⟩
      = (if (children.get ⟨i, hi⟩).fullyExpanded = false
          then ((children.get ⟨i, hi⟩).count : ℚ)
          else if (children.get ⟨i, hi⟩).eval = -(if maximizing then (1 : ℚ) else -1) then 0
          else (selfCount : ℚ)
            * (1 - (selfEval * (if maximizing then (1 : ℚ) else -1) / 2 + 1 / 2))) := by
    simp [choose_best_weights, List.get_eq_getElem, List.getElem_map]
  refine ⟨fun h1 => ?_, fun h1 h2 => ?_, fun h1 h2 => ?_⟩
  · rw [hmap, if_pos h1]
  · rw [hmap, if_neg (by simpa using h1), if_pos h2]
  · rw [hmap, if_neg (by simpa using h1), if_neg h2]
    ring

/-- Witness for `choose_best_weights_spec`: the unsolved-child clause at
the counterexample's input gives weight `4`. -/
theorem choose_best_weights_spec_witness :
    (choose_best_weights true (1/2) 10 [⟨false, 0, 4⟩])[0]? = some 4 := by
  have h := (choose_best_weights_spec true (1/2) 10 [⟨false, 0, 4⟩] 1 (by norm_num)
    0 (by decide) (by decide)).1 (by decide)
  simp only [List.get_eq_getElem] at h
  rw [List.getElem?_eq_getElem (by decide)]
  simp only [h]
  simp

namespace MiniMax

variable {α : Type}

theorem foldMax_cons (b v : PyF) (vs : List PyF) :
    foldMax b (v :: vs) = foldMax (if b < v then v else b) vs := rfl

theorem foldMin_cons (b v : PyF) (vs : List PyF) :
    foldMin b (v :: vs) = foldMin (if v < b then v else b) vs := rfl

theorem le_foldMax (vs : List PyF) : ∀ b : PyF, b ≤ foldMax b vs := by
  induction vs with
  | nil => intro b; exact le_refl b
  | cons v t ih =>
    intro b
    rw [foldMax_cons]
    refine le_trans ?_ (ih _)
    split
    · exact le_of_lt (by assumption)
    · exact le_refl b

theorem foldMin_le (vs : List PyF) : ∀ b : PyF, foldMin b vs ≤ b := by
  induction vs with
  | nil => intro b; exact le_refl b
  | cons v t ih =>
    intro b
    rw [foldMin_cons]
    refine le_trans (ih _) ?_
    split
    · exact le_of_lt (by assumption)
    · exact le_refl b

theorem evalLoop_nil (G : Game α) (hf : α → ℚ) (d : ℕ) (m : Bool) (V best : PyF) :
    evalLoop G hf d m V best [] = best := by
  rw [evalLoop]

theorem evalLoop_cons_max (G : Game α) (hf : α → ℚ) (d : ℕ) (V best : PyF)
    (c : α) (rest : List α) :
    evalLoop G hf d true V best (c :: rest)
      = (if best < evaluate_position_recursive G hf d false best c then
          if V < evaluate_position_recursive G hf d false best c then
            evaluate_position_recursive G hf d false best c
          else evalLoop G hf d true V (evaluate_position_recursive G hf d false best c) rest
        else evalLoop G hf d true V best rest) := by
  rw [evalLoop]
  norm_num

theorem evalLoop_cons_min (G : Game α) (hf : α → ℚ) (d : ℕ) (V best : PyF)
    (c : α) (rest : List α) :
    evalLoop G hf d false V best (c :: rest)
      = (if evaluate_position_recursive G hf d true best c < best then
          if evaluate_position_recursive G hf d true best c < V then
            evaluate_position_recursive G hf d true best c
          else evalLoop G hf d false V (evaluate_position_recursive G hf d true best c) rest
        else evalLoop G hf d false V best rest) := by
  rw [evalLoop]
  norm_num

/-- The `evalLoop` faithfulness at a maximizing node, given the
faithfulness of the depth-`d` minimizing searches of the children. -/
theorem evalLoop_faithful_max (G : Game α) (hf : α → ℚ) (d : ℕ)
    (IH : ∀ (V : PyF) (p : α),
      (V ≤ unpruned G hf d false p →
        evaluate_position_recursive G hf d false V p = unpruned G hf d false p) ∧
      (unpruned G hf d false p < V →
        evaluate_position_recursive G hf d false V p < V ∧
        unpruned G hf d false p ≤ evaluate_position_recursive G hf d false V p)) :
    ∀ (cs : List α) (V best : PyF),
      (foldMax best (cs.map (unpruned G hf d false)) ≤ V →
        evalLoop G hf d true V best cs = foldMax best (cs.map (unpruned G hf d false))) ∧
      (V < foldMax best (cs.map (unpruned G hf d false)) →
        V < evalLoop G hf d true V best cs ∧
        evalLoop G hf d true V best cs ≤ foldMax best (cs.map (unpruned G hf d false))) := by
  intro cs
  induction cs with
  | nil =>
    intro V best
    rw [evalLoop_nil]
    simp only [List.map_nil]
    exact ⟨fun _ => rfl, fun hV => ⟨hV, le_refl _⟩⟩
  | cons c rest ih =>
    intro V best
    simp only [List.map_cons, foldMax_cons]
    rw [evalLoop_cons_max]
    rcases le_or_lt best (unpruned G hf d false c) with hbm | hbm
    · -- the child's exact value is at least the current best: exact search
      have hr : evaluate_position_recursive G hf d false best c
          = unpruned G hf d false c := (IH best c).1 hbm
      rw [hr]
      rcases lt_or_le best (unpruned G hf d false c) with hlt | hle
      · rw [if_pos hlt, if_pos hlt]
        rcases lt_or_le V (unpruned G hf d false c) with hpr | hpr
        · -- prune: the returned child value already beats V
          rw [if_pos hpr]
          have hle2 : unpruned G hf d false c
              ≤ foldMax (unpruned G hf d false c) (rest.map (unpruned G hf d false)) :=
            le_foldMax _ _
          exact ⟨fun habs => absurd (lt_of_lt_of_le hpr hle2) (not_lt.2 habs),
            fun _ => ⟨hpr, hle2⟩⟩
        · rw [if_neg (not_lt.2 hpr)]
          exact ih V (unpruned G hf d false c)
      · -- equal values: no update either way
        rw [if_neg (not_lt.2 hle), if_neg (not_lt.2 hle)]
        exact ih V best
    · -- the child is worse than the current best: the pruned search may
      -- return an inexact value, but it stays below best, so no update
      have hr := (IH best c).2 hbm
      rw [if_neg (not_lt.2 (le_of_lt hr.1)), if_neg (not_lt.2 (le_of_lt hbm))]
      exact ih V best

/-- The `evalLoop` faithfulness at a minimizing node. -/
theorem evalLoop_faithful_min (G : Game α) (hf : α → ℚ) (d : ℕ)
    (IH : ∀ (V : PyF) (p : α),
      (unpruned G hf d true p ≤ V →
        evaluate_position_recursive G hf d true V p = unpruned G hf d true p) ∧
      (V < unpruned G hf d true p →
        V < evaluate_position_recursive G hf d true V p ∧
        evaluate_position_recursive G hf d true V p ≤ unpruned G hf d true p)) :
    ∀ (cs : List α) (V best : PyF),
      (V ≤ foldMin best (cs.map (unpruned G hf d true)) →
        evalLoop G hf d false V best cs = foldMin best (cs.map (unpruned G hf d true))) ∧
      (foldMin best (cs.map (unpruned G hf d true)) < V →
        evalLoop G hf d false V best cs < V ∧
        foldMin best (cs.map (unpruned G hf d true)) ≤ evalLoop G hf d false V best cs) := by
  intro cs
  induction cs with
  | nil =>
    intro V best
    rw [evalLoop_nil]
    simp only [List.map_nil]
    exact ⟨fun _ => rfl, fun hV => ⟨hV, le_refl _⟩⟩
  | cons c rest ih =>
    intro V best
    simp only [List.map_cons, foldMin_cons]
    rw [evalLoop_cons_min]
    rcases le_or_lt (unpruned G hf d true c) best with hbm | hbm
    · have hr : evaluate_position_recursive G hf d true best c
          = unpruned G hf d true c := (IH best c).1 hbm
      rw [hr]
      rcases lt_or_le (unpruned G hf d true c) best with hlt | hle
      · rw [if_pos hlt, if_pos hlt]
        rcases lt_or_le (unpruned G hf d true c) V with hpr | hpr
        · rw [if_pos hpr]
          have hle2 : foldMin (unpruned G hf d true c) (rest.map (unpruned G hf d true))
              ≤ unpruned G hf d true c := foldMin_le _ _
          exact ⟨fun habs => absurd (lt_of_le_of_lt hle2 hpr) (not_lt.2 habs),
            fun _ => ⟨hpr, hle2⟩⟩
        · rw [if_neg (not_lt.2 hpr)]
          exact ih V (unpruned G hf d true c)
      · rw [if_neg (not_lt.2 hle), if_neg (not_lt.2 hle)]
        exact ih V best
    · have hr := (IH best c).2 hbm
      rw [if_neg (not_lt.2 (le_of_lt hr.1)), if_neg (not_lt.2 (le_of_lt hbm))]
      exact ih V best

/-- Fail-soft alpha-beta window faithfulness of
`evaluate_position_recursive` against the unpruned search: with the bound
not yet reached the result is exact, and past the bound the result is
squeezed between the bound and the exact value. -/
theorem eval_faithful (G : Game α) (hf : α → ℚ) :
    ∀ (d : ℕ) (V : PyF) (p : α),
      ((unpruned G hf d true p ≤ V →
        evaluate_position_recursive G hf d true V p = unpruned G hf d true p) ∧
      (V < unpruned G hf d true p →
        V < evaluate_position_recursive G hf d true V p ∧
        evaluate_position_recursive G hf d true V p ≤ unpruned G hf d true p)) ∧
      ((V ≤ unpruned G hf d false p →
        evaluate_position_recursive G hf d false V p = unpruned G hf d false p) ∧
      (unpruned G hf d false p < V →
        evaluate_position_recursive G hf d false V p < V ∧
        unpruned G hf d false p ≤ evaluate_position_recursive G hf d false V p)) := by
  intro d
  induction d with
  | zero =>
    intro V p
    rw [evaluate_position_recursive, unpruned, evaluate_position_recursive, unpruned]
    by_cases hov : G.is_over p = true
    · simp only [hov, if_true]
      exact ⟨⟨fun _ => trivial, fun h => ⟨h, le_refl _⟩⟩,
        ⟨fun _ => trivial, fun h => ⟨h, le_refl _⟩⟩⟩
    · simp only [hov, if_false, Bool.false_eq_true]
      exact ⟨⟨fun _ => trivial, fun h => ⟨h, le_refl _⟩⟩,
        ⟨fun _ => trivial, fun h => ⟨h, le_refl _⟩⟩⟩
  | succ d ihd =>
    intro V p
    have IHmin := fun (V : PyF) (p : α) => (ihd V p).2
    have IHmax := fun (V : PyF) (p : α) => (ihd V p).1
    rw [evaluate_position_recursive, unpruned, evaluate_position_recursive, unpruned]
    by_cases hov : G.is_over p = true
    · simp only [hov, if_true]
      exact ⟨⟨fun _ => trivial, fun h => ⟨h, le_refl _⟩⟩,
        ⟨fun _ => trivial, fun h => ⟨h, le_refl _⟩⟩⟩
    · simp only [hov, if_false, Bool.false_eq_true]
      constructor
      · exact evalLoop_faithful_max G hf d IHmin (G.get_possible_moves p) V ⊥
      · exact evalLoop_faithful_min G hf d IHmax (G.get_possible_moves p) V ⊤

theorem choose_move_loop_cons_max (G : Game α) (hf : α → ℚ) (d : ℕ)
    (bm : Option α) (best : PyF) (m : α) (rest : List α) :
    choose_move_loop G hf d true bm best (m :: rest)
      = (if best < evaluate_position_recursive G hf d false best m then
          choose_move_loop G hf d true (some m)
            (evaluate_position_recursive G hf d false best m) rest
        else choose_move_loop G hf d true bm best rest) := by
  rw [choose_move_loop]
  by_cases hc : best < evaluate_position_recursive G hf d false best m <;>
    simp [hc]

theorem choose_move_loop_cons_min (G : Game α) (hf : α → ℚ) (d : ℕ)
    (bm : Option α) (best : PyF) (m : α) (rest : List α) :
    choose_move_loop G hf d false bm best (m :: rest)
      = (if evaluate_position_recursive G hf d true best m < best then
          choose_move_loop G hf d false (some m)
            (evaluate_position_recursive G hf d true best m) rest
        else choose_move_loop G hf d false bm best rest) := by
  rw [choose_move_loop]
  by_cases hc : evaluate_position_recursive G hf d true best m < best <;>
    simp [hc]

theorem choose_move_unpruned_loop_cons_max (G : Game α) (hf : α → ℚ) (d : ℕ)
    (bm : Option α) (best : PyF) (m : α) (rest : List α) :
    choose_move_unpruned_loop G hf d true bm best (m :: rest)
      = (if best < unpruned G hf d false m then
          choose_move_unpruned_loop G hf d true (some m) (unpruned G hf d false m) rest
        else choose_move_unpruned_loop G hf d true bm best rest) := by
  rw [choose_move_unpruned_loop]
  by_cases hc : best < unpruned G hf d false m <;> simp [hc]

theorem choose_move_unpruned_loop_cons_min (G : Game α) (hf : α → ℚ) (d : ℕ)
    (bm : Option α) (best : PyF) (m : α) (rest : List α) :
    choose_move_unpruned_loop G hf d false bm best (m :: rest)
      = (if unpruned G hf d true m < best then
          choose_move_unpruned_loop G hf d false (some m) (unpruned G hf d true m) rest
        else choose_move_unpruned_loop G hf d false bm best rest) := by
  rw [choose_move_unpruned_loop]
  by_cases hc : unpruned G hf d true m < best <;> simp [hc]

/-- The pruned and unpruned `choose_move` loops agree step by step at a
maximizing root. -/
theorem choose_loop_equiv_max (G : Game α) (hf : α → ℚ) (d : ℕ) :
    ∀ (cs : List α) (bm : Option α) (best : PyF),
      choose_move_loop G hf d true bm best cs
        = choose_move_unpruned_loop G hf d true bm best cs := by
  intro cs
  induction cs with
  | nil =>
    intro bm best
    rw [choose_move_loop, choose_move_unpruned_loop]
  | cons m rest ih =>
    intro bm best
    rw [choose_move_loop_cons_max, choose_move_unpruned_loop_cons_max]
    rcases le_or_lt best (unpruned G hf d false m) with hbm | hbm
    · have hr : evaluate_position_recursive G hf d false best m
          = unpruned G hf d false m := ((eval_faithful G hf d best m).2).1 hbm
      rw [hr]
      by_cases hc : best < unpruned G hf d false m
      · rw [if_pos hc, if_pos hc]
        exact ih (some m) _
      · rw [if_neg hc, if_neg hc]
        exact ih bm best
    · have hr := ((eval_faithful G hf d best m).2).2 hbm
      rw [if_neg (not_lt.2 (le_of_lt hr.1)), if_neg (not_lt.2 (le_of_lt hbm))]
      exact ih bm best

/-- The pruned and unpruned `choose_move` loops agree step by step at a
minimizing root. -/
theorem choose_loop_equiv_min (G : Game α) (hf : α → ℚ) (d : ℕ) :
    ∀ (cs : List α) (bm : Option α) (best : PyF),
      choose_move_loop G hf d false bm best cs
        = choose_move_unpruned_loop G hf d false bm best cs := by
  intro cs
  induction cs with
  | nil =>
    intro bm best
    rw [choose_move_loop, choose_move_unpruned_loop]
  | cons m rest ih =>
    intro bm best
    rw [choose_move_loop_cons_min, choose_move_unpruned_loop_cons_min]
    rcases le_or_lt (unpruned G hf d true m) best with hbm | hbm
    · have hr : evaluate_position_recursive G hf d true best m
          = unpruned G hf d true m := ((eval_faithful G hf d best m).1).1 hbm
      rw [hr]
      by_cases hc : unpruned G hf d true m < best
      · rw [if_pos hc, if_pos hc]
        exact ih (some m) _
      · rw [if_neg hc, if_neg hc]
        exact ih bm best
    · have hr := ((eval_faithful G hf d best m).1).2 hbm
      rw [if_neg (not_lt.2 (le_of_lt hr.1)), if_neg (not_lt.2 (le_of_lt hbm))]
      exact ih bm best

/-- C5: confirmed.  For a fixed finite depth and heuristic,
`MiniMax.choose_move` with alpha-beta pruning returns exactly the same
chosen move and reported value as the unpruned full-depth search. -/
theorem alpha_beta_equivalence (G : Game α) (hf : α → ℚ) (depth : ℕ)
    (_hd : 1 ≤ depth) (p : α) :
    choose_move G hf depth p = choose_move_unpruned G hf depth p := by
  rw [choose_move, choose_move_unpruned]
  by_cases hov : G.is_over p = true
  · simp [hov]
  · simp only [hov, if_false, Bool.false_eq_true]
    cases hturn : G.is_player_1_turn p
    · rw [choose_loop_equiv_min]
    · rw [choose_loop_equiv_max]

/-- Witness for `alpha_beta_equivalence` at depth 2 on the one-position
game `G1` with the zero heuristic. -/
theorem alpha_beta_equivalence_witness :
    1 ≤ 2 ∧
    choose_move G1 (fun _ => 0) 2 () = choose_move_unpruned G1 (fun _ => 0) 2 () :=
  ⟨by decide, alpha_beta_equivalence G1 (fun _ => 0) 2 (by decide) ()⟩

end MiniMax

namespace HTree

variable {α : Type}

theorem getNodeAt_nil (t : HTree α) : getNodeAt t [] = some t := rfl

theorem getNodeAt_cons (p : α) (fe : Bool) (h : ℚ) (e : ℕ∞) (pol : List ℚ)
    (hc : Bool) (ch : List (HTree α)) (i : ℕ) (rest : List ℕ) (child : HTree α)
    (hch : ch[i]? = some child) :
    getNodeAt (.node p fe h e pol hc ch) (i :: rest) = getNodeAt child rest := by
  rw [getNodeAt]
  simp only [children, hch]

theorem improvesAlong_mono (G : Game α) (crit : ℚ) (t : HTree α)
    (path : List ℕ) (k k' : ℕ) (hk : k ≤ k')
    (H : improvesAlong G crit t path k) : improvesAlong G crit t path k' :=
  fun j hj1 hj2 m hm => H j (le_trans hk hj1) hj2 m hm

theorem improvesAlong_succ_cons (G : Game α) (crit : ℚ) (p : α) (fe : Bool)
    (h : ℚ) (e : ℕ∞) (pol : List ℚ) (hc : Bool) (ch : List (HTree α))
    (i : ℕ) (rest : List ℕ) (k : ℕ) (child : HTree α) (hch : ch[i]? = some child) :
    improvesAlong G crit (.node p fe h e pol hc ch) (i :: rest) (k + 1)
      ↔ improvesAlong G crit child rest k := by
  constructor
  · intro H j hj1 hj2 m hm
    refine H (j + 1) (by omega) (by simpa using Nat.succ_lt_succ hj2) m ?_
    rw [List.take_succ_cons, getNodeAt_cons p fe h e pol hc ch i _ child hch]
    exact hm
  · intro H j hj1 hj2 m hm
    obtain ⟨j', rfl⟩ : ∃ j', j = j' + 1 := ⟨j - 1, by omega⟩
    rw [List.take_succ_cons, getNodeAt_cons p fe h e pol hc ch i _ child hch] at hm
    exact H j' (by omega) (by simpa using hj2) m hm

theorem improvesAlong_zero_cons (G : Game α) (crit : ℚ) (p : α) (fe : Bool)
    (h : ℚ) (e : ℕ∞) (pol : List ℚ) (hc : Bool) (ch : List (HTree α))
    (i : ℕ) (rest : List ℕ) (child : HTree α) (hch : ch[i]? = some child) :
    improvesAlong G crit (.node p fe h e pol hc ch) (i :: rest) 0
      ↔ improves G crit (.node p fe h e pol hc ch) = true
        ∧ improvesAlong G crit child rest 0 := by
  constructor
  · intro H
    refine ⟨H 0 (le_refl 0) (by simp) _ rfl, ?_⟩
    exact (improvesAlong_succ_cons G crit p fe h e pol hc ch i rest 0 child hch).1
      (improvesAlong_mono G crit _ _ 0 1 (by omega) H)
  · rintro ⟨H0, H⟩ j hj1 hj2 m hm
    cases j with
    | zero =>
      rw [List.take_zero, getNodeAt_nil] at hm
      cases hm
      exact H0
    | succ j' =>
      rw [List.take_succ_cons, getNodeAt_cons p fe h e pol hc ch i _ child hch] at hm
      exact H j' (by omega) (by simpa using hj2) m hm

theorem ensure_children_of_not_hasChildren (G : Game α) (results : List (List ℚ × ℚ))
    (t : HTree α) (h1 : t.hasChildren = false) :
    (ensure_children G results t).expansions = 1 ∧
    (ensure_children G results t).pos = t.pos ∧
    (ensure_children G results t).fullyExpanded = t.fullyExpanded ∧
    (ensure_children G results t).hasChildren = true := by
  cases t with
  | node p fe h e pol hc ch =>
    simp only [hasChildren] at h1
    subst h1
    rw [ensure_children]
    simp only [Bool.false_eq_true, if_false]
    exact ⟨rfl, rfl, rfl, rfl⟩

theorem expandLocal_ok (G : Game α) (results : List (List ℚ × ℚ))
    (t t1 : HTree α) (c : ℚ) (hloc : expandLocal G results t = .ok (t1, c)) :
    t1.heuristic = c ∧ t1.expansions = 1 ∧ t1.hasChildren = true ∧
    (if G.is_player_1_turn t.pos then pyMax (t1.children.map heuristic)
     else pyMin (t1.children.map heuristic)) = some c := by
  rw [expandLocal] at hloc
  by_cases h1 : t.hasChildren = true
  · rw [if_pos h1] at hloc; cases hloc
  · rw [if_neg h1] at hloc
    by_cases h2 : t.fullyExpanded = true
    · rw [if_pos h2] at hloc; cases hloc
    · rw [if_neg h2] at hloc
      obtain ⟨he1, hp1, _, _⟩ := ensure_children_of_not_hasChildren G results t
        (by simpa using h1)
      cases hmax : (if G.is_player_1_turn (ensure_children G results t).pos = true
          then pyMax ((ensure_children G results t).children.map heuristic)
          else pyMin ((ensure_children G results t).children.map heuristic)) with
      | none => rw [hmax] at hloc; cases hloc
      | some c2 =>
        rw [hmax] at hloc
        simp only [Except.ok.injEq, Prod.mk.injEq] at hloc
        obtain ⟨h3, h4⟩ := hloc
        subst h4
        rw [← h3]
        refine ⟨rfl, ?_, ?_, ?_⟩
        · show (ensure_children G results t).expansions = 1
          exact he1
        · show (ensure_children G results t).hasChildren = true
          exact (ensure_children_of_not_hasChildren G results t
            (by simpa using h1)).2.2.2
        · show (if G.is_player_1_turn t.pos = true
              then pyMax ((ensure_children G results t).children.map heuristic)
              else pyMin ((ensure_children G results t).children.map heuristic)) = some c2
          rw [← hp1]
          exact hmax

/-- C6: confirmed.  When `HeuristicNode.expand` expands the node at `path`:
the node's value becomes the max (if maximizing) or min of its children's
values; every proper ancestor's expansion counter is incremented by one
(all the way to the root); an ancestor's value becomes the critical value
exactly when every ancestor below it (itself included) is improved by it,
so value propagation stops at the first unaffected ancestor while counters
keep climbing. -/
theorem expand_backup_spec (G : Game α) (results : List (List ℚ × ℚ)) :
    ∀ (path : List ℕ) (t t' : HTree α) (crit : ℚ) (live : Bool),
      expand G results t path = .ok (t', crit, live) →
      ((∃ tgt tgt', getNodeAt t path = some tgt ∧
        expandLocal G results tgt = .ok (tgt', crit) ∧
        getNodeAt t' path = some tgt' ∧
        tgt'.heuristic = crit ∧ tgt'.expansions = 1 ∧ tgt'.hasChildren = true ∧
        (if G.is_player_1_turn tgt.pos then pyMax (tgt'.children.map heuristic)
         else pyMin (tgt'.children.map heuristic)) = some crit) ∧
      (live = true ↔ improvesAlong G crit t path 0) ∧
      (∀ k, k < path.length →
        ∃ n n', getNodeAt t (path.take k) = some n ∧
          getNodeAt t' (path.take k) = some n' ∧
          n'.expansions = n.expansions + 1 ∧ n'.pos = n.pos ∧
          n'.fullyExpanded = n.fullyExpanded ∧
          (improvesAlong G crit t path k → n'.heuristic = crit) ∧
          (¬ improvesAlong G crit t path k → n'.heuristic = n.heuristic))) := by
  intro path
  induction path with
  | nil =>
    intro t t' crit live hexp
    rw [expand] at hexp
    cases hloc : expandLocal G results t with
    | error err =>
      rw [hloc] at hexp
      simp [bind, Except.bind] at hexp
    | ok res =>
      obtain ⟨t1, c1⟩ := res
      rw [hloc] at hexp
      simp only [bind, Except.bind, pure, Except.pure, Except.ok.injEq,
        Prod.mk.injEq] at hexp
      obtain ⟨ht', hc, hl⟩ := hexp
      subst ht'
      subst hc
      subst hl
      obtain ⟨hA, hB, hC, hD⟩ := expandLocal_ok G results t t1 c1 hloc
      refine ⟨⟨t, t1, rfl, hloc, rfl, hA, hB, hC, hD⟩, ?_, ?_⟩
      · simp only [true_iff]
        intro j hj1 hj2 m hm
        exact absurd hj2 (by simp)
      · intro k hk
        exact absurd hk (by simp)
  | cons i rest ih =>
    intro t t' crit live hexp
    cases t with
    | node p fe h e pol hc ch =>
      rw [expand] at hexp
      cases hch : ch[i]? with
      | none =>
        simp only [hch] at hexp
        exact Except.noConfusion hexp
      | some child =>
        simp only [hch] at hexp
        cases hrec : expand G results child rest with
        | error err =>
          rw [hrec] at hexp
          simp [bind, Except.bind] at hexp
        | ok res =>
          obtain ⟨child', crit', live'⟩ := res
          rw [hrec] at hexp
          simp only [bind, Except.bind, pure, Except.pure] at hexp
          have hilen : i < ch.length := by
            rcases List.getElem?_eq_some.1 hch with ⟨hl, _⟩
            exact hl
          have hset : (ch.set i child')[i]? = some child' :=
            List.getElem?_set_eq_of_lt child' hilen
          obtain ⟨⟨tgt, tgt', htgt, hloc, htgt', htgA, htgB, htgC, htgD⟩, hlive, hanc⟩ :=
            ih child child' crit' live' hrec
          by_cases hcond : (live' && improves G crit' (.node p fe h e pol hc ch)) = true
          · rw [if_pos hcond] at hexp
            simp only [Except.ok.injEq, Prod.mk.injEq] at hexp
            obtain ⟨ht', hc2, hl⟩ := hexp
            subst ht'
            subst hc2
            subst hl
            have hcondP : improvesAlong G crit' (.node p fe h e pol hc ch) (i :: rest) 0 := by
              rw [improvesAlong_zero_cons G crit' p fe h e pol hc ch i rest child hch]
              rw [Bool.and_eq_true] at hcond
              exact ⟨hcond.2, hlive.1 hcond.1⟩
            refine ⟨⟨tgt, tgt', ?_, hloc, ?_, htgA, htgB, htgC, htgD⟩, ?_, ?_⟩
            · rw [getNodeAt_cons p fe h e pol hc ch i rest child hch]
              exact htgt
            · rw [getNodeAt_cons p fe crit' (e + 1) pol hc (ch.set i child') i rest child' hset]
              exact htgt'
            · simp only [true_iff]
              exact hcondP
            · intro k hk
              cases k with
              | zero =>
                refine ⟨.node p fe h e pol hc ch,
                  .node p fe crit' (e + 1) pol hc (ch.set i child'),
                  rfl, rfl, rfl, rfl, rfl, fun _ => rfl, fun hni => absurd hcondP hni⟩
              | succ k' =>
                have hk' : k' < rest.length := by simpa using hk
                obtain ⟨n, n', hn, hn', he, hp, hf, hy, hny⟩ := hanc k' hk'
                refine ⟨n, n', ?_, ?_, he, hp, hf, ?_, ?_⟩
                · rw [List.take_succ_cons, getNodeAt_cons p fe h e pol hc ch i _ child hch]
                  exact hn
                · rw [List.take_succ_cons,
                    getNodeAt_cons p fe crit' (e + 1) pol hc (ch.set i child') i _ child' hset]
                  exact hn'
                · intro hcl
                  exact hy ((improvesAlong_succ_cons G crit' p fe h e pol hc ch i rest k'
                    child hch).1 hcl)
                · intro hcl
                  refine hny fun hcl' => hcl ?_
                  exact (improvesAlong_succ_cons G crit' p fe h e pol hc ch i rest k'
                    child hch).2 hcl'
          · rw [if_neg hcond] at hexp
            simp only [Except.ok.injEq, Prod.mk.injEq] at hexp
            obtain ⟨ht', hc2, hl⟩ := hexp
            subst ht'
            subst hc2
            subst hl
            have hcondP : ¬ improvesAlong G crit' (.node p fe h e pol hc ch) (i :: rest) 0 := by
              rw [improvesAlong_zero_cons G crit' p fe h e pol hc ch i rest child hch]
              rintro ⟨him, hal⟩
              refine hcond ?_
              rw [Bool.and_eq_true]
              exact ⟨hlive.2 hal, him⟩
            refine ⟨⟨tgt, tgt', ?_, hloc, ?_, htgA, htgB, htgC, htgD⟩, ?_, ?_⟩
            · rw [getNodeAt_cons p fe h e pol hc ch i rest child hch]
              exact htgt
            · rw [getNodeAt_cons p fe h (e + 1) pol hc (ch.set i child') i rest child' hset]
              exact htgt'
            · simp only [Bool.false_eq_true, false_iff]
              exact hcondP
            · intro k hk
              cases k with
              | zero =>
                refine ⟨.node p fe h e pol hc ch,
                  .node p fe h (e + 1) pol hc (ch.set i child'),
                  rfl, rfl, rfl, rfl, rfl, fun hcl => absurd hcl hcondP, fun _ => rfl⟩
              | succ k' =>
                have hk' : k' < rest.length := by simpa using hk
                obtain ⟨n, n', hn, hn', he, hp, hf, hy, hny⟩ := hanc k' hk'
                refine ⟨n, n', ?_, ?_, he, hp, hf, ?_, ?_⟩
                · rw [List.take_succ_cons, getNodeAt_cons p fe h e pol hc ch i _ child hch]
                  exact hn
                · rw [List.take_succ_cons,
                    getNodeAt_cons p fe h (e + 1) pol hc (ch.set i child') i _ child' hset]
                  exact hn'
                · intro hcl
                  exact hy ((improvesAlong_succ_cons G crit' p fe h e pol hc ch i rest k'
                    child hch).1 hcl)
                · intro hcl
                  refine hny fun hcl' => hcl ?_
                  exact (improvesAlong_succ_cons G crit' p fe h e pol hc ch i rest k'
                    child hch).2 hcl'

end HTree


/-- Witness for `HTree.expand_backup_spec`: expanding `hRootEx`'s leaf with
network value 2 updates the leaf to value 2 and propagates 2 to the root,
incrementing its counter. -/
theorem expand_backup_spec_witness :
    HTree.expand G1 [([], 2)] hRootEx [0] = .ok (HTree.hRootExExpanded, 2, true) ∧
    (true = true ↔ HTree.improvesAlong G1 2 hRootEx [0] 0) := by
  have hexp : HTree.expand G1 [([], 2)] hRootEx [0] = .ok (HTree.hRootExExpanded, 2, true) := by
    norm_num [HTree.expand, HTree.expandLocal, HTree.ensure_children, HTree.newNode,
      HTree.improves, HTree.hasChildren, HTree.fullyExpanded, HTree.children,
      HTree.pos, HTree.heuristic, HTree.expansions, HTree.policyOf, pyMax, G1,
      hRootEx, hLeaf, HTree.hRootExExpanded, bind, Except.bind, pure, Except.pure]
  exact ⟨hexp,
    (HTree.expand_backup_spec G1 [([], 2)] [0] hRootEx HTree.hRootExExpanded 2 true hexp).2.1⟩

namespace RTree

variable {α : Type}

theorem evalFlag_of_fe (t : RTree α) (hfe : t.fullyExpanded = true) :
    evalFlag t = (t.rolloutSum, false) := by
  rw [evalFlag, get_evaluation, if_pos hfe]

theorem evalFlag_snd_of_count_ne_zero (t : RTree α) (hc : t.rolloutCount ≠ 0) :
    (evalFlag t).2 = false := by
  rw [evalFlag]
  cases hge : get_evaluation t with
  | ok v => rfl
  | error e =>
    exfalso
    rw [get_evaluation] at hge
    split at hge
    · cases hge
    · split at hge
      · cases hge
      · split at hge
        · rename_i n heq hn
          exact hc (by rw [heq, hn]; rfl)
        · cases hge

theorem puctIsInf_false_count (sc cc : ℕ∞) (h : puctIsInf sc cc = false) :
    cc ≠ 0 := by
  rw [puctIsInf, Bool.or_eq_false_iff] at h
  intro hc
  rw [hc] at h
  simp at h

theorem scan_flag (f : ℕ∞ → ℕ∞ → ℚ) (M : Bool) (sc : ℕ∞) (opt : ℚ) :
    ∀ (ch : List (RTree α)) (i : ℕ) (best : Option (ℕ × RTree α × ℚ)) (flag : Bool),
      (∀ fl, scanChildren f M sc opt i best flag ch = .solvedOptimal fl → fl = flag) ∧
      (∀ j c fl, scanChildren f M sc opt i best flag ch = .infChild j c fl → fl = flag) ∧
      (∀ ob fl, scanChildren f M sc opt i best flag ch = .finished ob fl → fl = flag) := by
  intro ch
  induction ch with
  | nil =>
    intro i best flag
    refine ⟨fun fl h => ?_, fun j c fl h => ?_, fun ob fl h => ?_⟩ <;>
      rw [scanChildren] at h <;> cases h <;> rfl
  | cons child rest ih =>
    intro i best flag
    by_cases hfe : child.fullyExpanded = true
    · by_cases hopt : child.rolloutSum = opt
      · refine ⟨fun fl h => ?_, fun j c fl h => ?_, fun ob fl h => ?_⟩ <;>
          rw [scanChildren, if_pos hfe, if_pos hopt] at h <;> cases h <;> rfl
      · refine ⟨fun fl h => ?_, fun j c fl h => ?_, fun ob fl h => ?_⟩ <;>
          rw [scanChildren, if_pos hfe, if_neg hopt] at h
        · exact (ih (i + 1) best flag).1 _ h
        · exact (ih (i + 1) best flag).2.1 _ _ _ h
        · exact (ih (i + 1) best flag).2.2 _ _ h
    · by_cases hinf : puctIsInf sc child.rolloutCount = true
      · refine ⟨fun fl h => ?_, fun j c fl h => ?_, fun ob fl h => ?_⟩ <;>
          rw [scanChildren, if_neg hfe, if_pos hinf] at h <;> cases h <;> rfl
      · have hfl : (evalFlag child).2 = false :=
          evalFlag_snd_of_count_ne_zero child
            (puctIsInf_false_count sc child.rolloutCount (by simpa using hinf))
        refine ⟨fun fl h => ?_, fun j c fl h => ?_, fun ob fl h => ?_⟩ <;>
          rw [scanChildren, if_neg hfe, if_neg hinf, hfl, Bool.or_false] at h
        · exact (ih (i + 1) _ flag).1 _ h
        · exact (ih (i + 1) _ flag).2.1 _ _ _ h
        · exact (ih (i + 1) _ flag).2.2 _ _ h

theorem scan_solvedOptimal (f : ℕ∞ → ℕ∞ → ℚ) (M : Bool) (sc : ℕ∞) (opt : ℚ) :
    ∀ (ch : List (RTree α)) (i : ℕ) (best : Option (ℕ × RTree α × ℚ)) (flag : Bool)
      (fl : Bool),
      scanChildren f M sc opt i best flag ch = .solvedOptimal fl →
      ∃ c, c ∈ ch ∧ c.fullyExpanded = true ∧ c.rolloutSum = opt := by
  intro ch
  induction ch with
  | nil =>
    intro i best flag fl h
    rw [scanChildren] at h
    cases h
  | cons child rest ih =>
    intro i best flag fl h
    by_cases hfe : child.fullyExpanded = true
    · by_cases hopt : child.rolloutSum = opt
      · exact ⟨child, List.mem_cons_self child rest, hfe, hopt⟩
      · rw [scanChildren, if_pos hfe, if_neg hopt] at h
        obtain ⟨c, hm, h1, h2⟩ := ih (i + 1) best flag fl h
        exact ⟨c, List.mem_cons_of_mem child hm, h1, h2⟩
    · by_cases hinf : puctIsInf sc child.rolloutCount = true
      · rw [scanChildren, if_neg hfe, if_pos hinf] at h
        cases h
      · rw [scanChildren, if_neg hfe, if_neg hinf] at h
        obtain ⟨c, hm, h1, h2⟩ := ih (i + 1) _ _ fl h
        exact ⟨c, List.mem_cons_of_mem child hm, h1, h2⟩

theorem scan_infChild (f : ℕ∞ → ℕ∞ → ℚ) (M : Bool) (sc : ℕ∞) (opt : ℚ) :
    ∀ (ch : List (RTree α)) (i : ℕ) (best : Option (ℕ × RTree α × ℚ)) (flag : Bool)
      (j : ℕ) (c : RTree α) (fl : Bool),
      scanChildren f M sc opt i best flag ch = .infChild j c fl →
      ∃ k, ∃ hk : k < ch.length, j = i + k ∧ ch.get ⟨k, hk⟩ = c ∧
        c.fullyExpanded = false ∧ puctIsInf sc c.rolloutCount = true := by
  intro ch
  induction ch with
  | nil =>
    intro i best flag j c fl h
    rw [scanChildren] at h
    cases h
  | cons child rest ih =>
    intro i best flag j c fl h
    by_cases hfe : child.fullyExpanded = true
    · by_cases hopt : child.rolloutSum = opt
      · rw [scanChildren, if_pos hfe, if_pos hopt] at h
        cases h
      · rw [scanChildren, if_pos hfe, if_neg hopt] at h
        obtain ⟨k, hk, h1, h2, h3, h4⟩ := ih (i + 1) best flag j c fl h
        exact ⟨k + 1, by simpa using Nat.succ_lt_succ hk, by omega, h2, h3, h4⟩
    · by_cases hinf : puctIsInf sc child.rolloutCount = true
      · rw [scanChildren, if_neg hfe, if_pos hinf] at h
        cases h
        exact ⟨0, by simp, by omega, rfl, by simpa using hfe, hinf⟩
      · rw [scanChildren, if_neg hfe, if_neg hinf] at h
        obtain ⟨k, hk, h1, h2, h3, h4⟩ := ih (i + 1) _ _ j c fl h
        exact ⟨k + 1, by simpa using Nat.succ_lt_succ hk, by omega, h2, h3, h4⟩

theorem scan_best_some (f : ℕ∞ → ℕ∞ → ℚ) (M : Bool) (sc : ℕ∞) (opt : ℚ) :
    ∀ (ch : List (RTree α)) (i : ℕ) (b : ℕ × RTree α × ℚ) (flag : Bool)
      (ob : Option (ℕ × RTree α)) (fl : Bool),
      scanChildren f M sc opt i (some b) flag ch = .finished ob fl →
      ∃ b', ob = some b' := by
  intro ch
  induction ch with
  | nil =>
    intro i b flag ob fl h
    rw [scanChildren] at h
    cases h
    exact ⟨_, rfl⟩
  | cons child rest ih =>
    intro i b flag ob fl h
    by_cases hfe : child.fullyExpanded = true
    · by_cases hopt : child.rolloutSum = opt
      · rw [scanChildren, if_pos hfe, if_pos hopt] at h
        cases h
      · rw [scanChildren, if_pos hfe, if_neg hopt] at h
        exact ih (i + 1) b flag ob fl h
    · by_cases hinf : puctIsInf sc child.rolloutCount = true
      · rw [scanChildren, if_neg hfe, if_pos hinf] at h
        cases h
      · rw [scanChildren, if_neg hfe, if_neg hinf] at h
        by_cases hb : betterThan M (combOf f M sc child) (some b) = true
        · rw [if_pos hb] at h
          exact ih (i + 1) _ _ ob fl h
        · rw [if_neg hb] at h
          exact ih (i + 1) b _ ob fl h

theorem scan_finished_none (f : ℕ∞ → ℕ∞ → ℚ) (M : Bool) (sc : ℕ∞) (opt : ℚ) :
    ∀ (ch : List (RTree α)) (i : ℕ) (best : Option (ℕ × RTree α × ℚ)) (flag : Bool)
      (fl : Bool),
      scanChildren f M sc opt i best flag ch = .finished none fl →
      ∀ c, c ∈ ch → c.fullyExpanded = true := by
  intro ch
  induction ch with
  | nil =>
    intro i best flag fl h c hc
    cases hc
  | cons child rest ih =>
    intro i best flag fl h c hc
    by_cases hfe : child.fullyExpanded = true
    · by_cases hopt : child.rolloutSum = opt
      · rw [scanChildren, if_pos hfe, if_pos hopt] at h
        cases h
      · rw [scanChildren, if_pos hfe, if_neg hopt] at h
        rcases List.mem_cons.1 hc with hceq | hcm
        · rw [hceq]; exact hfe
        · exact ih (i + 1) best flag fl h c hcm
    · by_cases hinf : puctIsInf sc child.rolloutCount = true
      · rw [scanChildren, if_neg hfe, if_pos hinf] at h
        cases h
      · rw [scanChildren, if_neg hfe, if_neg hinf] at h
        exfalso
        by_cases hb : betterThan M (combOf f M sc child) best = true
        · rw [if_pos hb] at h
          obtain ⟨b', hb'⟩ := scan_best_some f M sc opt rest (i + 1) _ _ none fl h
          cases hb'
        · rw [if_neg hb] at h
          cases hbest : best with
          | none =>
            rw [hbest] at hb
            exact hb rfl
          | some b =>
            rw [hbest] at h
            obtain ⟨b', hb'⟩ := scan_best_some f M sc opt rest (i + 1) b _ none fl h
            cases hb'

theorem scan_finished_some (f : ℕ∞ → ℕ∞ → ℚ) (M : Bool) (sc : ℕ∞) (opt : ℚ) :
    ∀ (ch : List (RTree α)) (i : ℕ) (best : Option (ℕ × RTree α × ℚ)) (flag : Bool)
      (j : ℕ) (c : RTree α) (fl : Bool),
      scanChildren f M sc opt i best flag ch = .finished (some (j, c)) fl →
      (∃ v, best = some (j, c, v)) ∨
      (∃ k, ∃ hk : k < ch.length, j = i + k ∧ ch.get ⟨k, hk⟩ = c ∧
        c.fullyExpanded = false ∧ puctIsInf sc c.rolloutCount = false) := by
  intro ch
  induction ch with
  | nil =>
    intro i best flag j c fl h
    rw [scanChildren] at h
    cases best with
    | none => cases h
    | some b =>
      obtain ⟨b1, b2, b3⟩ := b
      cases h
      exact Or.inl ⟨b3, rfl⟩
  | cons child rest ih =>
    intro i best flag j c fl h
    by_cases hfe : child.fullyExpanded = true
    · by_cases hopt : child.rolloutSum = opt
      · rw [scanChildren, if_pos hfe, if_pos hopt] at h
        cases h
      · rw [scanChildren, if_pos hfe, if_neg hopt] at h
        rcases ih (i + 1) best flag j c fl h with hl | ⟨k, hk, h1, h2, h3, h4⟩
        · exact Or.inl hl
        · exact Or.inr ⟨k + 1, by simpa using Nat.succ_lt_succ hk, by omega, h2, h3, h4⟩
    · by_cases hinf : puctIsInf sc child.rolloutCount = true
      · rw [scanChildren, if_neg hfe, if_pos hinf] at h
        cases h
      · rw [scanChildren, if_neg hfe, if_neg hinf] at h
        by_cases hb : betterThan M (combOf f M sc child) best = true
        · rw [if_pos hb] at h
          rcases ih (i + 1) _ _ j c fl h with ⟨v, hv⟩ | ⟨k, hk, h1, h2, h3, h4⟩
          · simp only [Option.some.injEq, Prod.mk.injEq] at hv
            obtain ⟨rfl, rfl, -⟩ := hv
            exact Or.inr ⟨0, by simp, by omega, rfl, by simpa using hfe,
              by simpa using hinf⟩
          · exact Or.inr ⟨k + 1, by simpa using Nat.succ_lt_succ hk, by omega,
              h2, h3, h4⟩
        · rw [if_neg hb] at h
          rcases ih (i + 1) best _ j c fl h with hl | ⟨k, hk, h1, h2, h3, h4⟩
          · exact Or.inl hl
          · exact Or.inr ⟨k + 1, by simpa using Nat.succ_lt_succ hk, by omega,
              h2, h3, h4⟩

end RTree

namespace RTree

variable {α : Type}

/-- C10: confirmed.  Along any `choose_expansion_node` descent, a child
with rollout count 0 gets an infinite exploration score and is returned
before `get_evaluation` is read on it, so `rollout_sum / rollout_count`
is never evaluated with `rollout_count = 0`: the division flag of the
instrumented model is never raised. -/
theorem choose_expansion_no_div_by_zero (f : ℕ∞ → ℕ∞ → ℚ) (G : Game α) :
    ∀ (fuel : ℕ) (t t' : RTree α) (op : Option (List ℕ)) (fl : Bool),
      choose_expansion_node f G fuel t = some (t', op, fl) → fl = false := by
  intro fuel
  induction fuel with
  | zero =>
    intro t t' op fl h
    cases h
  | succ fuel ih =>
    intro t t' op fl h
    rw [choose_expansion_node] at h
    by_cases hfe : t.fullyExpanded = true
    · rw [if_pos hfe] at h
      cases h
      rfl
    · rw [if_neg hfe] at h
      by_cases hc0 : t.count_expansions = 0
      · rw [if_pos hc0] at h
        cases h
        rfl
      · rw [if_neg hc0] at h
        cases hscan : scanChildren f (G.is_player_1_turn (ensure_children G t).pos)
            (ensure_children G t).count_expansions
            (if G.is_player_1_turn (ensure_children G t).pos then (1 : ℚ) else -1)
            0 none false (ensure_children G t).children with
        | solvedOptimal flag =>
          simp only [hscan] at h
          cases h
          exact (scan_flag f _ _ _ _ 0 none false).1 _ hscan
        | infChild i c flag =>
          simp only [hscan] at h
          cases h
          exact (scan_flag f _ _ _ _ 0 none false).2.1 _ _ _ hscan
        | finished ob flag =>
          simp only [hscan] at h
          have hflag : flag = false := (scan_flag f _ _ _ _ 0 none false).2.2 _ _ hscan
          cases ob with
          | none =>
            cases hmv : (if G.is_player_1_turn (ensure_children G t).pos
                then pyMax (((ensure_children G t).children.map evalFlag).map Prod.fst)
                else pyMin (((ensure_children G t).children.map evalFlag).map Prod.fst)) with
            | none =>
              simp only [hmv] at h
              cases h
            | some mv =>
              simp only [hmv] at h
              cases h
              rw [hflag, Bool.false_or]
              refine List.any_eq_false.2 ?_
              intro x hx
              rw [List.mem_map] at hx
              obtain ⟨c, hcm, rfl⟩ := hx
              have hcf : c.fullyExpanded = true :=
                scan_finished_none f _ _ _ _ 0 none false flag hscan c hcm
              rw [evalFlag_of_fe c hcf]
              simp
          | some b =>
            obtain ⟨bi, bc⟩ := b
            cases hrec : choose_expansion_node f G fuel bc with
            | none =>
              simp only [hrec] at h
              cases h
            | some res =>
              obtain ⟨bc', op2, fl2⟩ := res
              simp only [hrec] at h
              have hfl2 : fl2 = false := ih bc bc' op2 fl2 hrec
              cases op2 with
              | some pth =>
                cases h
                rw [hflag, hfl2]
                rfl
              | none =>
                cases hrec2 : choose_expansion_node f G fuel
                    (setChild bi bc' (ensure_children G t)) with
                | none =>
                  simp only [hrec2] at h
                  cases h
                | some res2 =>
                  obtain ⟨t2, r2, fl3⟩ := res2
                  simp only [hrec2] at h
                  cases h
                  have hfl3 : fl3 = false := ih _ _ _ _ hrec2
                  rw [hflag, hfl2, hfl3]
                  rfl

/-- Witness for `choose_expansion_no_div_by_zero`: on a root with one
never-visited child, the child is returned through the infinite-score path
with the division flag off. -/
theorem choose_expansion_no_div_by_zero_witness :
    choose_expansion_node (fun _ _ => 0) G1 1 rFreshEx
        = some (rFreshEx, some [0], false) ∧ (false : Bool) = false := by
  have heval : choose_expansion_node (fun _ _ => 0) G1 1 rFreshEx
      = some (rFreshEx, some [0], false) := by
    simp +decide [choose_expansion_node, ensure_children, scanChildren, puctIsInf,
      rFreshEx, count_expansions, fullyExpanded, rolloutCount, rolloutSum,
      hasChildren, children, pos, G1]
  exact ⟨heval, choose_expansion_no_div_by_zero (fun _ _ => 0) G1 1 rFreshEx
    rFreshEx (some [0]) false heval⟩

end RTree

theorem foldl_max_mem (xs : List ℚ) : ∀ x, xs.foldl max x ∈ x :: xs := by
  induction xs with
  | nil => intro x; exact List.mem_singleton.2 rfl
  | cons y ys ih =>
    intro x
    rw [List.foldl_cons]
    rcases List.mem_cons.1 (ih (max x y)) with heq | hmem
    · rcases max_choice x y with hm | hm
      · rw [heq, hm]
        exact List.mem_cons_self _ _
      · rw [heq, hm]
        exact List.mem_cons_of_mem x (List.mem_cons_self _ _)
    · exact List.mem_cons_of_mem x (List.mem_cons_of_mem y hmem)

theorem le_foldl_max (xs : List ℚ) :
    ∀ x, x ≤ xs.foldl max x ∧ ∀ y ∈ xs, y ≤ xs.foldl max x := by
  induction xs with
  | nil =>
    intro x
    exact ⟨le_refl x, fun y hy => absurd hy (List.not_mem_nil y)⟩
  | cons y ys ih =>
    intro x
    rw [List.foldl_cons]
    refine ⟨le_trans (le_max_left x y) (ih (max x y)).1, fun z hz => ?_⟩
    rcases List.mem_cons.1 hz with heq | hmem
    · rw [heq]
      exact le_trans (le_max_right x y) (ih (max x y)).1
    · exact (ih (max x y)).2 z hmem

theorem foldl_min_mem (xs : List ℚ) : ∀ x, xs.foldl min x ∈ x :: xs := by
  induction xs with
  | nil => intro x; exact List.mem_singleton.2 rfl
  | cons y ys ih =>
    intro x
    rw [List.foldl_cons]
    rcases List.mem_cons.1 (ih (min x y)) with heq | hmem
    · rcases min_choice x y with hm | hm
      · rw [heq, hm]
        exact List.mem_cons_self _ _
      · rw [heq, hm]
        exact List.mem_cons_of_mem x (List.mem_cons_self _ _)
    · exact List.mem_cons_of_mem x (List.mem_cons_of_mem y hmem)

theorem foldl_min_le (xs : List ℚ) :
    ∀ x, xs.foldl min x ≤ x ∧ ∀ y ∈ xs, xs.foldl min x ≤ y := by
  induction xs with
  | nil =>
    intro x
    exact ⟨le_refl x, fun y hy => absurd hy (List.not_mem_nil y)⟩
  | cons y ys ih =>
    intro x
    rw [List.foldl_cons]
    refine ⟨le_trans (ih (min x y)).1 (min_le_left x y), fun z hz => ?_⟩
    rcases List.mem_cons.1 hz with heq | hmem
    · rw [heq]
      exact le_trans (ih (min x y)).1 (min_le_right x y)
    · exact (ih (min x y)).2 z hmem

theorem pyMax_mem (l : List ℚ) (v : ℚ) (h : pyMax l = some v) : v ∈ l := by
  cases l with
  | nil => cases h
  | cons x xs =>
    rw [pyMax] at h
    cases h
    exact foldl_max_mem xs x

theorem le_pyMax (l : List ℚ) (v : ℚ) (h : pyMax l = some v) :
    ∀ y ∈ l, y ≤ v := by
  cases l with
  | nil => cases h
  | cons x xs =>
    rw [pyMax] at h
    cases h
    intro y hy
    rcases List.mem_cons.1 hy with heq | hmem
    · rw [heq]
      exact (le_foldl_max xs x).1
    · exact (le_foldl_max xs x).2 y hmem

theorem pyMax_eq_of_mem_le (l : List ℚ) (b : ℚ) (hmem : b ∈ l)
    (hub : ∀ x ∈ l, x ≤ b) : pyMax l = some b := by
  cases l with
  | nil => cases hmem
  | cons x xs =>
    rw [pyMax]
    congr 1
    refine le_antisymm (hub _ (foldl_max_mem xs x)) ?_
    rcases List.mem_cons.1 hmem with heq | hmem2
    · rw [heq]
      exact (le_foldl_max xs x).1
    · exact (le_foldl_max xs x).2 b hmem2

theorem pyMin_mem (l : List ℚ) (v : ℚ) (h : pyMin l = some v) : v ∈ l := by
  cases l with
  | nil => cases h
  | cons x xs =>
    rw [pyMin] at h
    cases h
    exact foldl_min_mem xs x

theorem pyMin_le (l : List ℚ) (v : ℚ) (h : pyMin l = some v) :
    ∀ y ∈ l, v ≤ y := by
  cases l with
  | nil => cases h
  | cons x xs =>
    rw [pyMin] at h
    cases h
    intro y hy
    rcases List.mem_cons.1 hy with heq | hmem
    · rw [heq]
      exact (foldl_min_le xs x).1
    · exact (foldl_min_le xs x).2 y hmem

theorem pyMin_eq_of_mem_le (l : List ℚ) (b : ℚ) (hmem : b ∈ l)
    (hlb : ∀ x ∈ l, b ≤ x) : pyMin l = some b := by
  cases l with
  | nil => cases hmem
  | cons x xs =>
    rw [pyMin]
    congr 1
    refine le_antisymm ?_ (hlb _ (foldl_min_mem xs x))
    rcases List.mem_cons.1 hmem with heq | hmem2
    · rw [heq]
      exact (foldl_min_le xs x).1
    · exact (foldl_min_le xs x).2 b hmem2

theorem minimaxVal_unique {α : Type} (G : Game α) :
    ∀ (p : α) (v : ℚ), MinimaxVal G p v → ∀ w, MinimaxVal G p w → v = w := by
  intro p v h
  induction h with
  | term p hov =>
    intro w hw
    cases hw with
    | term _ _ => rfl
    | maxNode _ ws w hover2 hturn2 hlen2 hvals2 hmax2 => rw [hov] at hover2; cases hover2
    | minNode _ ws w hover2 hturn2 hlen2 hvals2 hmin2 => rw [hov] at hover2; cases hover2
  | maxNode p vs v hover hturn hlen hvals hmax ih =>
    intro w hw
    cases hw with
    | term _ h2 => rw [h2] at hover; cases hover
    | minNode _ ws w hover2 hturn2 hlen2 hvals2 hmin2 => rw [hturn] at hturn2; cases hturn2
    | maxNode _ ws w hover2 hturn2 hlen2 hvals2 hmax2 =>
      have hvw : vs = ws := by
        refine List.ext_get (by omega) fun i h1 h2 => ?_
        exact ih i (by omega) h1 (ws.get ⟨i, h2⟩) (hvals2 i (by omega) h2)
      subst hvw
      rw [hmax] at hmax2
      cases hmax2
      rfl
  | minNode p vs v hover hturn hlen hvals hmin ih =>
    intro w hw
    cases hw with
    | term _ h2 => rw [h2] at hover; cases hover
    | maxNode _ ws w hover2 hturn2 hlen2 hvals2 hmax2 => rw [hturn] at hturn2; cases hturn2
    | minNode _ ws w hover2 hturn2 hlen2 hvals2 hmin2 =>
      have hvw : vs = ws := by
        refine List.ext_get (by omega) fun i h1 h2 => ?_
        exact ih i (by omega) h1 (ws.get ⟨i, h2⟩) (hvals2 i (by omega) h2)
      subst hvw
      rw [hmin] at hmin2
      cases hmin2
      rfl

theorem minimaxVal_range {α : Type} (G : Game α)
    (hwin : ∀ p, G.is_over p = true →
      G.get_winner p = -1 ∨ G.get_winner p = 0 ∨ G.get_winner p = 1) :
    ∀ (p : α) (v : ℚ), MinimaxVal G p v → v = -1 ∨ v = 0 ∨ v = 1 := by
  intro p v h
  induction h with
  | term p hov => exact hwin p hov
  | maxNode p vs v hover hturn hlen hvals hmax ih =>
    obtain ⟨⟨i, hi⟩, hget⟩ := List.mem_iff_get.1 (pyMax_mem vs v hmax)
    exact hget ▸ ih i (by omega) hi
  | minNode p vs v hover hturn hlen hvals hmin ih =>
    obtain ⟨⟨i, hi⟩, hget⟩ := List.mem_iff_get.1 (pyMin_mem vs v hmin)
    exact hget ▸ ih i (by omega) hi

namespace RTree

variable {α : Type}

theorem newNode_pos (G : Game α) (m : α) : (newNode G m).pos = m := by
  rw [newNode]
  split <;> rfl

theorem newNode_inv (G : Game α) (m : α) : TreeInv G (newNode G m) := by
  rw [newNode]
  split
  · rename_i hov
    exact TreeInv.mk _ _ _ _ _ _ (fun h => by cases h) (fun _ => MinimaxVal.term m hov)
      (fun h => by cases h) (fun _ => rfl) (fun i hi => absurd hi (by simp))
  · rename_i hov
    exact TreeInv.mk _ _ _ _ _ _ (fun _ => by simpa using hov) (fun h => by cases h)
      (fun h => by cases h) (fun _ => rfl) (fun i hi => absurd hi (by simp))

theorem ensure_children_of_hasChildren (G : Game α) (t : RTree α)
    (h : t.hasChildren = true) : ensure_children G t = t := by
  cases t with
  | node p fe s c hc ch =>
    rw [ensure_children]
    simp only [hasChildren] at h
    rw [if_pos h]

theorem ensure_children_fields (G : Game α) (t : RTree α) :
    (ensure_children G t).pos = t.pos ∧
    (ensure_children G t).fullyExpanded = t.fullyExpanded ∧
    (ensure_children G t).rolloutSum = t.rolloutSum ∧
    (ensure_children G t).rolloutCount = t.rolloutCount := by
  cases t with
  | node p fe s c hc ch =>
    rw [ensure_children]
    split <;> exact ⟨rfl, rfl, rfl, rfl⟩

theorem ensure_children_inv (G : Game α) (t : RTree α) (hInv : TreeInv G t)
    (hc0 : t.rolloutCount ≠ 0) : TreeInv G (ensure_children G t) := by
  cases hInv with
  | mk p fe s c hc ch h1 h2 h3 h4 h5 =>
    rw [ensure_children]
    by_cases hhc : hc = true
    · rw [if_pos hhc]
      exact TreeInv.mk p fe s c hc ch h1 h2 h3 h4 h5
    · rw [if_neg hhc]
      refine TreeInv.mk p fe s c true _ h1 h2 (fun _ => ⟨?_, by simpa using hc0⟩)
        (fun h => by cases h) (fun i hi => ?_)
      · rw [List.map_map]
        have : (pos ∘ newNode G) = fun m : α => m := by
          funext m
          exact newNode_pos G m
        rw [this]
        exact List.map_id' _
      · rw [List.get_map]
        exact newNode_inv G _

theorem getNodeAt_cons_some (p : α) (fe : Bool) (s : ℚ) (c : ℕ∞) (hc : Bool)
    (ch : List (RTree α)) (j : ℕ) (q : List ℕ) (cj : RTree α)
    (hch : ch[j]? = some cj) :
    getNodeAt (.node p fe s c hc ch) (j :: q) = getNodeAt cj q := by
  rw [getNodeAt]
  simp only [children, hch]

theorem getNodeAt_cons_none (p : α) (fe : Bool) (s : ℚ) (c : ℕ∞) (hc : Bool)
    (ch : List (RTree α)) (j : ℕ) (q : List ℕ) (hch : ch[j]? = none) :
    getNodeAt (.node p fe s c hc ch) (j :: q) = none := by
  rw [getNodeAt]
  simp only [children, hch]

theorem getNodeAt_inv (G : Game α) :
    ∀ (q : List ℕ) (t n : RTree α), TreeInv G t → getNodeAt t q = some n →
      TreeInv G n := by
  intro q
  induction q with
  | nil =>
    intro t n hInv h
    cases h
    exact hInv
  | cons j rest ih =>
    intro t n hInv h
    cases hInv with
    | mk p fe s c hc ch h1 h2 h3 h4 h5 =>
      cases hch : ch[j]? with
      | none => rw [getNodeAt_cons_none p fe s c hc ch j rest hch] at h; cases h
      | some cj =>
        rw [getNodeAt_cons_some p fe s c hc ch j rest cj hch] at h
        obtain ⟨hlt, hget⟩ := List.getElem?_eq_some.1 hch
        refine ih cj n ?_ h
        have h6 := h5 j hlt
        rw [List.get_eq_getElem] at h6
        rw [hget] at h6
        exact h6

theorem set_fully_expanded_inv (G : Game α) (t : RTree α) (v : ℚ)
    (hInv : TreeInv G t) (hmv : MinimaxVal G t.pos v) :
    TreeInv G (set_fully_expanded v t) := by
  cases hInv with
  | mk p fe s c hc ch h1 h2 h3 h4 h5 =>
    rw [set_fully_expanded]
    exact TreeInv.mk p true v ⊤ hc ch (fun h => by cases h) (fun _ => hmv)
      (fun hh => ⟨(h3 hh).1, by simp⟩) h4 h5

theorem setChild_inv (G : Game α) (p : α) (fe : Bool) (s : ℚ) (c : ℕ∞) (hc : Bool)
    (ch : List (RTree α)) (i : ℕ) (cnew cold : RTree α)
    (hInv : TreeInv G (.node p fe s c hc ch)) (hold : ch[i]? = some cold)
    (hnew : TreeInv G cnew) (hpos : cnew.pos = cold.pos) :
    TreeInv G (setChild i cnew (.node p fe s c hc ch)) := by
  cases hInv with
  | mk p fe s c hc ch h1 h2 h3 h4 h5 =>
    rw [setChild]
    obtain ⟨hlt, hget⟩ := List.getElem?_eq_some.1 hold
    refine TreeInv.mk p fe s c hc _ h1 h2 (fun hh => ⟨?_, (h3 hh).2⟩)
      (fun hh => by rw [h4 hh] at hold; cases hold) (fun j hj => ?_)
    · rw [← (h3 hh).1]
      refine List.ext_get (by simp) fun k hk1 hk2 => ?_
      simp only [List.get_eq_getElem, List.getElem_map]
      rw [List.getElem_set]
      split
      · rename_i hik
        rw [hpos]
        subst hik
        rw [hget]
      · rfl
    · rw [List.get_eq_getElem, List.getElem_set]
      split
      · exact hnew
      · have h6 := h5 j (by simpa using hj)
        rw [List.get_eq_getElem] at h6
        exact h6

theorem setChild_pos (i : ℕ) (cnew t : RTree α) :
    (setChild i cnew t).pos = t.pos := by
  cases t with
  | node p fe s c hc ch => rw [setChild]; rfl

theorem getNodeAt_setChild_same (p : α) (fe : Bool) (s : ℚ) (c : ℕ∞) (hc : Bool)
    (ch : List (RTree α)) (i : ℕ) (cnew : RTree α) (q : List ℕ)
    (hlt : i < ch.length) :
    getNodeAt (setChild i cnew (.node p fe s c hc ch)) (i :: q) = getNodeAt cnew q := by
  rw [setChild]
  exact getNodeAt_cons_some p fe s c hc _ i q cnew
    (List.getElem?_set_eq_of_lt cnew hlt)

theorem getNodeAt_setChild_other (p : α) (fe : Bool) (s : ℚ) (c : ℕ∞) (hc : Bool)
    (ch : List (RTree α)) (i : ℕ) (cnew : RTree α) (j : ℕ) (q : List ℕ)
    (hne : j ≠ i) :
    getNodeAt (setChild i cnew (.node p fe s c hc ch)) (j :: q)
      = getNodeAt (.node p fe s c hc ch) (j :: q) := by
  rw [setChild]
  have hj : (ch.set i cnew)[j]? = ch[j]? := List.getElem?_set_ne (fun h => hne h.symm)
  cases hch : ch[j]? with
  | none =>
    rw [getNodeAt_cons_none p fe s c hc _ j q (by rw [hj, hch]),
      getNodeAt_cons_none p fe s c hc ch j q hch]
  | some cj =>
    rw [getNodeAt_cons_some p fe s c hc _ j q cj (by rw [hj, hch]),
      getNodeAt_cons_some p fe s c hc ch j q cj hch]

theorem getNodeAt_set_fully_expanded_cons (v : ℚ) (t : RTree α) (j : ℕ) (q : List ℕ) :
    getNodeAt (set_fully_expanded v t) (j :: q) = getNodeAt t (j :: q) := by
  cases t with
  | node p fe s c hc ch =>
    rw [set_fully_expanded]
    cases hch : ch[j]? with
    | none =>
      rw [getNodeAt_cons_none p true v ⊤ hc ch j q hch,
        getNodeAt_cons_none p fe s c hc ch j q hch]
    | some cj =>
      rw [getNodeAt_cons_some p true v ⊤ hc ch j q cj hch,
        getNodeAt_cons_some p fe s c hc ch j q cj hch]

end RTree

namespace RTree

variable {α : Type}

theorem treeInv_not_fe_over (G : Game α) (t : RTree α) (h : TreeInv G t)
    (hfe : t.fullyExpanded = false) : G.is_over t.pos = false := by
  cases h with
  | mk p fe s c hc ch h1 h2 h3 h4 h5 => exact h1 hfe

theorem treeInv_fe_minimax (G : Game α) (t : RTree α) (h : TreeInv G t)
    (hfe : t.fullyExpanded = true) : MinimaxVal G t.pos t.rolloutSum := by
  cases h with
  | mk p fe s c hc ch h1 h2 h3 h4 h5 => exact h2 hfe

theorem treeInv_child (G : Game α) (p : α) (fe : Bool) (s : ℚ) (c : ℕ∞)
    (hc : Bool) (ch : List (RTree α)) (h : TreeInv G (.node p fe s c hc ch))
    (i : ℕ) (ci : RTree α) (hci : ch[i]? = some ci) : TreeInv G ci := by
  cases h with
  | mk p fe s c hc ch h1 h2 h3 h4 h5 =>
    obtain ⟨hlt, hget⟩ := List.getElem?_eq_some.1 hci
    have h6 := h5 i hlt
    rw [List.get_eq_getElem] at h6
    rw [hget] at h6
    exact h6

theorem ensure_children_hasChildren (G : Game α) (t : RTree α) :
    (ensure_children G t).hasChildren = true ∨ ensure_children G t = t := by
  cases t with
  | node p fe s c hc ch =>
    rw [ensure_children]
    split
    · exact Or.inr rfl
    · exact Or.inl rfl

theorem getNodeAt_ensure_children_cons (G : Game α) (t : RTree α)
    (hInv : TreeInv G t) (j : ℕ) (q : List ℕ) (n : RTree α)
    (h : getNodeAt t (j :: q) = some n) :
    getNodeAt (ensure_children G t) (j :: q) = some n := by
  cases hInv with
  | mk p fe s c hc ch h1 h2 h3 h4 h5 =>
    rw [ensure_children]
    by_cases hhc : hc = true
    · rw [if_pos hhc]
      exact h
    · exfalso
      rw [h4 (by simpa using hhc)] at h
      rw [getNodeAt_cons_none p fe s c hc [] j q (by simp)] at h
      cases h

theorem map_evalFlag_fst_of_all_fe (ch : List (RTree α))
    (hall : ∀ x ∈ ch, x.fullyExpanded = true) :
    (ch.map evalFlag).map Prod.fst = ch.map rolloutSum := by
  rw [List.map_map]
  refine List.map_congr_left fun x hx => ?_
  show (evalFlag x).1 = x.rolloutSum
  rw [evalFlag_of_fe x (hall x hx)]

/-- When a fully expanded child already attains the optimal value for the
mover, that optimal value is the exact minimax value of the position. -/
theorem marked_optimal_minimax (G : Game α)
    (hwin : ∀ p, G.is_over p = true →
      G.get_winner p = -1 ∨ G.get_winner p = 0 ∨ G.get_winner p = 1)
    (hfin : ∀ p, ∃ v, MinimaxVal G p v)
    (p : α) (ch : List (RTree α))
    (hover : G.is_over p = false)
    (hch : List.map pos ch = G.get_possible_moves p)
    (hchinv : ∀ i (hi : i < ch.length), TreeInv G (ch.get ⟨i, hi⟩))
    (cx : RTree α) (hmem : cx ∈ ch) (hfe : cx.fullyExpanded = true)
    (hsum : cx.rolloutSum = (if G.is_player_1_turn p then (1 : ℚ) else -1)) :
    MinimaxVal G p (if G.is_player_1_turn p then (1 : ℚ) else -1) := by
  obtain ⟨v, hv⟩ := hfin p
  obtain ⟨⟨k, hk⟩, hgetc⟩ := List.mem_iff_get.1 hmem
  have hkm : k < (G.get_possible_moves p).length := by
    rw [← hch, List.length_map]
    exact hk
  have hchk : ch[k]? = some cx := by
    rw [List.getElem?_eq_getElem hk, ← hgetc]
    simp only [List.get_eq_getElem]
  have hposk : (G.get_possible_moves p).get ⟨k, hkm⟩ = cx.pos := by
    have h7 : (G.get_possible_moves p)[k]? = some cx.pos := by
      rw [← hch, List.getElem?_map, hchk]
      rfl
    rw [List.getElem?_eq_getElem hkm] at h7
    simpa using h7
  have hcxInv : TreeInv G cx := by
    have h6 := hchinv k hk
    rw [hgetc] at h6
    exact h6
  have hcxmv : MinimaxVal G cx.pos cx.rolloutSum := treeInv_fe_minimax G cx hcxInv hfe
  cases hturn : G.is_player_1_turn p with
  | true =>
    rw [if_pos rfl]
    rw [hturn, if_pos rfl] at hsum
    suffices hveq : v = 1 by
      rw [← hveq]
      exact hv
    cases hv with
    | term _ h2 => rw [h2] at hover; cases hover
    | minNode _ vs w hover2 hturn2 hlen hvals hmin => rw [hturn] at hturn2; cases hturn2
    | maxNode _ vs w hover2 hturn2 hlen hvals hmax =>
      have hk2 : k < vs.length := by omega
      have hvk : vs.get ⟨k, hk2⟩ = 1 := by
        have hd := hvals k hkm hk2
        rw [hposk] at hd
        have := minimaxVal_unique G cx.pos cx.rolloutSum hcxmv _ hd
        rw [hsum] at this
        exact this.symm
      have hle : (1 : ℚ) ≤ v := by
        have h8 := le_pyMax vs v hmax (vs.get ⟨k, hk2⟩)
          (by simp only [List.get_eq_getElem]; exact List.getElem_mem hk2)
        rw [hvk] at h8
        exact h8
      have hv2 : MinimaxVal G p v :=
        MinimaxVal.maxNode p vs v hover2 hturn2 hlen hvals hmax
      rcases minimaxVal_range G hwin p v hv2 with h | h | h
      · rw [h] at hle; norm_num at hle
      · rw [h] at hle; norm_num at hle
      · exact h
  | false =>
    rw [if_neg (by simp)]
    rw [hturn, if_neg (by simp)] at hsum
    suffices hveq : v = -1 by
      rw [← hveq]
      exact hv
    cases hv with
    | term _ h2 => rw [h2] at hover; cases hover
    | maxNode _ vs w hover2 hturn2 hlen hvals hmax => rw [hturn] at hturn2; cases hturn2
    | minNode _ vs w hover2 hturn2 hlen hvals hmin =>
      have hk2 : k < vs.length := by omega
      have hvk : vs.get ⟨k, hk2⟩ = -1 := by
        have hd := hvals k hkm hk2
        rw [hposk] at hd
        have := minimaxVal_unique G cx.pos cx.rolloutSum hcxmv _ hd
        rw [hsum] at this
        exact this.symm
      have hle : v ≤ -1 := by
        have h8 := pyMin_le vs v hmin (vs.get ⟨k, hk2⟩)
          (by simp only [List.get_eq_getElem]; exact List.getElem_mem hk2)
        rw [hvk] at h8
        exact h8
      have hv2 : MinimaxVal G p v :=
        MinimaxVal.minNode p vs v hover2 hturn2 hlen hvals hmin
      rcases minimaxVal_range G hwin p v hv2 with h | h | h
      · exact h
      · rw [h] at hle; norm_num at hle
      · rw [h] at hle; norm_num at hle

/-- When every child of a node is fully expanded, the max/min of the
children's stored values is the exact minimax value of the position. -/
theorem marked_all_children_minimax (G : Game α) (p : α) (ch : List (RTree α))
    (hover : G.is_over p = false)
    (hch : List.map pos ch = G.get_possible_moves p)
    (hchinv : ∀ i (hi : i < ch.length), TreeInv G (ch.get ⟨i, hi⟩))
    (hall : ∀ x ∈ ch, x.fullyExpanded = true)
    (mv : ℚ)
    (hmv : (if G.is_player_1_turn p then pyMax (ch.map rolloutSum)
            else pyMin (ch.map rolloutSum)) = some mv) :
    MinimaxVal G p mv := by
  have hlen : (ch.map rolloutSum).length = (G.get_possible_moves p).length := by
    rw [List.length_map, ← hch, List.length_map]
  have hvals : ∀ i (h1 : i < (G.get_possible_moves p).length)
      (h2 : i < (ch.map rolloutSum).length),
      MinimaxVal G ((G.get_possible_moves p).get ⟨i, h1⟩)
        ((ch.map rolloutSum).get ⟨i, h2⟩) := by
    intro i h1 h2
    have hi : i < ch.length := by simpa using h2
    have hipos : (G.get_possible_moves p).get ⟨i, h1⟩ = (ch.get ⟨i, hi⟩).pos := by
      have h7 : (G.get_possible_moves p)[i]? = some (ch.get ⟨i, hi⟩).pos := by
        rw [← hch, List.getElem?_map, List.getElem?_eq_getElem hi]
        simp only [List.get_eq_getElem, Option.map_some']
      rw [List.getElem?_eq_getElem h1] at h7
      simpa using h7
    have hival : (ch.map rolloutSum).get ⟨i, h2⟩ = (ch.get ⟨i, hi⟩).rolloutSum := by
      simp only [List.get_eq_getElem, List.getElem_map]
    rw [hipos, hival]
    exact treeInv_fe_minimax G _ (hchinv i hi)
      (hall _ (by simp only [List.get_eq_getElem]; exact List.getElem_mem hi))
  cases hturn : G.is_player_1_turn p with
  | true =>
    rw [hturn, if_pos rfl] at hmv
    exact MinimaxVal.maxNode p (ch.map rolloutSum) mv hover hturn hlen hvals hmv
  | false =>
    rw [hturn, if_neg (by simp)] at hmv
    exact MinimaxVal.minNode p (ch.map rolloutSum) mv hover hturn hlen hvals hmv

end RTree

namespace RTree

variable {α : Type}

theorem ensure_children_hc (G : Game α) (t : RTree α) :
    (ensure_children G t).hasChildren = true := by
  cases t with
  | node p fe s c hc ch =>
    rw [ensure_children]
    split
    · rename_i h
      simpa [hasChildren] using h
    · rfl

theorem prefix_cons_cases (i : ℕ) (pth q : List ℕ) (h : q <+: i :: pth) :
    q = [] ∨ ∃ q', q = i :: q' ∧ q' <+: pth := by
  cases q with
  | nil => exact Or.inl rfl
  | cons x q' =>
    obtain ⟨hx, hq⟩ := List.cons_prefix_cons.1 h
    exact Or.inr ⟨q', by rw [hx], hq⟩

/-- Master preservation lemma for `choose_expansion_node`: the tree
invariant is preserved, the root position is unchanged, fully expanded
subtrees are left untouched, and every node along a returned expansion
path (including the root of that path) is not fully expanded. -/
theorem choose_expansion_preserves (f : ℕ∞ → ℕ∞ → ℚ) (G : Game α)
    (hwin : ∀ p, G.is_over p = true →
      G.get_winner p = -1 ∨ G.get_winner p = 0 ∨ G.get_winner p = 1)
    (hfin : ∀ p, ∃ v, MinimaxVal G p v) :
    ∀ (fuel : ℕ) (t t' : RTree α) (op : Option (List ℕ)) (fl : Bool),
      choose_expansion_node f G fuel t = some (t', op, fl) →
      TreeInv G t →
      TreeInv G t' ∧ t'.pos = t.pos ∧
      (∀ q n, getNodeAt t q = some n → n.fullyExpanded = true →
        getNodeAt t' q = some n) ∧
      (∀ pth, op = some pth → ∀ q, q <+: pth → ∀ n,
        getNodeAt t' q = some n → n.fullyExpanded = false) := by
  intro fuel
  induction fuel with
  | zero => intro t t' op fl h hInv; cases h
  | succ fuel ih =>
    intro t t' op fl h hInv
    rw [choose_expansion_node] at h
    by_cases hfe : t.fullyExpanded = true
    · rw [if_pos hfe] at h
      cases h
      exact ⟨hInv, rfl, fun q n hq _ => hq, fun pth hpth => by cases hpth⟩
    · rw [if_neg hfe] at h
      have hfeF : t.fullyExpanded = false := by simpa using hfe
      by_cases hc0 : t.count_expansions = 0
      · rw [if_pos hc0] at h
        cases h
        refine ⟨hInv, rfl, fun q n hq _ => hq, fun pth hpth q hq n hn => ?_⟩
        cases hpth
        have hqe := List.prefix_nil.1 hq
        subst hqe
        simp only [getNodeAt] at hn
        cases hn
        exact hfeF
      · rw [if_neg hc0] at h
        have hcne : t.rolloutCount ≠ 0 := fun hcc => hc0 (by rw [count_expansions]; exact hcc)
        have hInv1 : TreeInv G (ensure_children G t) := ensure_children_inv G t hInv hcne
        obtain ⟨p1, fe1, s1, c1, hcb1, ch1, ht1⟩ :
            ∃ p1 fe1 s1 c1 hcb1 ch1,
              ensure_children G t = RTree.node p1 fe1 s1 c1 hcb1 ch1 := by
          cases ensure_children G t with
          | node a b c d e g => exact ⟨a, b, c, d, e, g, rfl⟩
        have hp1 : p1 = t.pos := by
          have h6 := (ensure_children_fields G t).1
          rw [ht1] at h6
          simpa [pos] using h6
        have hfe1 : fe1 = false := by
          have h6 := (ensure_children_fields G t).2.1
          rw [ht1] at h6
          simp only [fullyExpanded] at h6
          rw [h6]
          exact hfeF
        have hhc1 : hcb1 = true := by
          have h6 := ensure_children_hc G t
          rw [ht1] at h6
          simpa [hasChildren] using h6
        rw [ht1] at h hInv1
        simp only [pos, count_expansions, rolloutCount, children, fullyExpanded] at h
        obtain ⟨hmap1, hc1ne⟩ : ch1.map pos = G.get_possible_moves p1 ∧ c1 ≠ 0 := by
          cases hInv1 with
          | mk _ _ _ _ _ _ h1 h2 h3 h4 h5 => exact h3 hhc1
        have hchinv1 : ∀ i (hi : i < ch1.length), TreeInv G (ch1.get ⟨i, hi⟩) := by
          cases hInv1 with
          | mk _ _ _ _ _ _ h1 h2 h3 h4 h5 => exact h5
        have hover1 : G.is_over p1 = false := by
          rw [hp1]
          exact treeInv_not_fe_over G t hInv hfeF
        have htrans : ∀ j q n, getNodeAt t (j :: q) = some n →
            getNodeAt (RTree.node p1 fe1 s1 c1 hcb1 ch1) (j :: q) = some n := by
          intro j q n hq
          rw [← ht1]
          exact getNodeAt_ensure_children_cons G t hInv j q n hq
        cases hscan : scanChildren f (G.is_player_1_turn p1) c1
            (if G.is_player_1_turn p1 then (1 : ℚ) else -1) 0 none false ch1 with
        | solvedOptimal flag =>
          simp only [hscan] at h
          cases h
          obtain ⟨cx, hcxm, hcxfe, hcxsum⟩ :=
            scan_solvedOptimal f (G.is_player_1_turn p1) c1 _ ch1 0 none false _ hscan
          have hmvopt : MinimaxVal G p1 (if G.is_player_1_turn p1 then (1 : ℚ) else -1) :=
            marked_optimal_minimax G hwin hfin p1 ch1 hover1 hmap1 hchinv1 cx hcxm hcxfe hcxsum
          refine ⟨?_, ?_, ?_, fun pth hpth => by cases hpth⟩
          · exact set_fully_expanded_inv G _ _ hInv1 (by simp only [pos]; exact hmvopt)
          · rw [set_fully_expanded]
            simp only [pos]
            exact hp1
          · intro q n hq hnfe
            cases q with
            | nil =>
              simp only [getNodeAt] at hq
              cases hq
              rw [hfeF] at hnfe
              cases hnfe
            | cons j q' =>
              rw [getNodeAt_set_fully_expanded_cons]
              exact htrans j q' n hq
        | infChild i c flag =>
          simp only [hscan] at h
          cases h
          obtain ⟨k, hk, hik, hgetk, hcfe, hcinf⟩ :=
            scan_infChild f (G.is_player_1_turn p1) c1 _ ch1 0 none false i c _ hscan
          have hchik : ch1[i]? = some c := by
            have hik0 : i = k := by omega
            rw [hik0, List.getElem?_eq_getElem hk, ← hgetk]
            simp only [List.get_eq_getElem]
          refine ⟨hInv1, by simp only [pos]; exact hp1, ?_, ?_⟩
          · intro q n hq hnfe
            cases q with
            | nil =>
              simp only [getNodeAt] at hq
              cases hq
              rw [hfeF] at hnfe
              cases hnfe
            | cons j q' => exact htrans j q' n hq
          · intro pth hpth q hq n hn
            cases hpth
            rcases prefix_cons_cases i [] q hq with hq0 | ⟨q', hq', hq'p⟩
            · subst hq0
              simp only [getNodeAt] at hn
              cases hn
              simp only [fullyExpanded]
              exact hfe1
            · subst hq'
              have hq'e : q' = [] := List.prefix_nil.1 hq'p
              subst hq'e
              rw [getNodeAt_cons_some p1 fe1 s1 c1 hcb1 ch1 i [] c hchik] at hn
              simp only [getNodeAt] at hn
              cases hn
              exact hcfe
        | finished ob flag =>
          simp only [hscan] at h
          cases ob with
          | none =>
            have hall : ∀ x ∈ ch1, x.fullyExpanded = true :=
              scan_finished_none f (G.is_player_1_turn p1) c1 _ ch1 0 none false flag hscan
            cases hmv : (if G.is_player_1_turn p1
                then pyMax ((ch1.map evalFlag).map Prod.fst)
                else pyMin ((ch1.map evalFlag).map Prod.fst)) with
            | none =>
              simp only [hmv] at h
              cases h
            | some mv =>
              simp only [hmv] at h
              cases h
              rw [map_evalFlag_fst_of_all_fe ch1 hall] at hmv
              have hmvmm : MinimaxVal G p1 mv :=
                marked_all_children_minimax G p1 ch1 hover1 hmap1 hchinv1 hall mv hmv
              refine ⟨?_, ?_, ?_, fun pth hpth => by cases hpth⟩
              · exact set_fully_expanded_inv G _ _ hInv1 (by simp only [pos]; exact hmvmm)
              · rw [set_fully_expanded]
                simp only [pos]
                exact hp1
              · intro q n hq hnfe
                cases q with
                | nil =>
                  simp only [getNodeAt] at hq
                  cases hq
                  rw [hfeF] at hnfe
                  cases hnfe
                | cons j q' =>
                  rw [getNodeAt_set_fully_expanded_cons]
                  exact htrans j q' n hq
          | some b =>
            obtain ⟨bi, bc⟩ := b
            rcases scan_finished_some f (G.is_player_1_turn p1) c1 _ ch1 0 none false
                bi bc flag hscan with ⟨v, hbest⟩ | ⟨k, hk, hik, hgetk, hbcfe, hbcinf⟩
            · cases hbest
            · have hchbi : ch1[bi]? = some bc := by
                have hik0 : bi = k := by omega
                rw [hik0, List.getElem?_eq_getElem hk, ← hgetk]
                simp only [List.get_eq_getElem]
              have hbilt : bi < ch1.length := by
                have := List.getElem?_eq_some.1 hchbi
                exact this.1
              have hbcInv : TreeInv G bc :=
                treeInv_child G p1 fe1 s1 c1 hcb1 ch1 hInv1 bi bc hchbi
              cases hrec : choose_expansion_node f G fuel bc with
              | none =>
                simp only [hrec] at h
                cases h
              | some res =>
                obtain ⟨bc', op2, fl2⟩ := res
                simp only [hrec] at h
                obtain ⟨hInvbc', hposbc', hpresbc', hpathbc'⟩ :=
                  ih bc bc' op2 fl2 hrec hbcInv
                have hInvS : TreeInv G (setChild bi bc' (RTree.node p1 fe1 s1 c1 hcb1 ch1)) :=
                  setChild_inv G p1 fe1 s1 c1 hcb1 ch1 bi bc' bc hInv1 hchbi hInvbc' hposbc'
                cases op2 with
                | some pth2 =>
                  cases h
                  refine ⟨hInvS, by rw [setChild_pos]; simp only [pos]; exact hp1, ?_, ?_⟩
                  · intro q n hq hnfe
                    cases q with
                    | nil =>
                      simp only [getNodeAt] at hq
                      cases hq
                      rw [hfeF] at hnfe
                      cases hnfe
                    | cons j q' =>
                      have hq1 := htrans j q' n hq
                      by_cases hji : j = bi
                      · subst hji
                        rw [getNodeAt_cons_some p1 fe1 s1 c1 hcb1 ch1 j q' bc hchbi] at hq1
                        rw [getNodeAt_setChild_same p1 fe1 s1 c1 hcb1 ch1 j bc' q' hbilt]
                        exact hpresbc' q' n hq1 hnfe
                      · rw [getNodeAt_setChild_other p1 fe1 s1 c1 hcb1 ch1 bi bc' j q' hji]
                        exact hq1
                  · intro pth hpth q hq n hn
                    cases hpth
                    rcases prefix_cons_cases bi pth2 q hq with hq0 | ⟨q', hq', hq'p⟩
                    · subst hq0
                      simp only [setChild, getNodeAt] at hn
                      cases hn
                      simp only [fullyExpanded]
                      exact hfe1
                    · subst hq'
                      rw [getNodeAt_setChild_same p1 fe1 s1 c1 hcb1 ch1 bi bc' q' hbilt] at hn
                      exact hpathbc' pth2 rfl q' hq'p n hn
                | none =>
                  cases hrec2 : choose_expansion_node f G fuel
                      (setChild bi bc' (RTree.node p1 fe1 s1 c1 hcb1 ch1)) with
                  | none =>
                    simp only [hrec2] at h
                    cases h
                  | some res2 =>
                    obtain ⟨t2, r2, fl3⟩ := res2
                    simp only [hrec2] at h
                    cases h
                    obtain ⟨hInv2, hpos2, hpres2, hpath2⟩ :=
                      ih _ _ _ _ hrec2 hInvS
                    refine ⟨hInv2, ?_, ?_, ?_⟩
                    · rw [hpos2, setChild_pos]
                      simp only [pos]
                      exact hp1
                    · intro q n hq hnfe
                      refine hpres2 q n ?_ hnfe
                      cases q with
                      | nil =>
                        simp only [getNodeAt] at hq
                        cases hq
                        rw [hfeF] at hnfe
                        cases hnfe
                      | cons j q' =>
                        have hq1 := htrans j q' n hq
                        by_cases hji : j = bi
                        · subst hji
                          rw [getNodeAt_cons_some p1 fe1 s1 c1 hcb1 ch1 j q' bc hchbi] at hq1
                          rw [getNodeAt_setChild_same p1 fe1 s1 c1 hcb1 ch1 j bc' q' hbilt]
                          exact hpresbc' q' n hq1 hnfe
                        · rw [getNodeAt_setChild_other p1 fe1 s1 c1 hcb1 ch1 bi bc' j q' hji]
                          exact hq1
                    · exact hpath2

end RTree

namespace RTree

variable {α : Type}

theorem expand_pos (r : ℚ) (b : ℕ) (t : RTree α) (pth : List ℕ) :
    (expand r b t pth).pos = t.pos := by
  cases t with
  | node p fe s c hc ch =>
    cases pth with
    | nil =>
      rw [expand]
      simp only [pos]
    | cons i rest =>
      rw [expand]
      cases hch : ch[i]? <;> simp only [pos]

theorem expand_off_path (r : ℚ) (b : ℕ) :
    ∀ (pth : List ℕ) (t : RTree α) (q : List ℕ), ¬(q <+: pth) →
      getNodeAt (expand r b t pth) q = getNodeAt t q := by
  intro pth
  induction pth with
  | nil =>
    intro t q hq
    cases t with
    | node p fe s c hc ch =>
      cases q with
      | nil => exact absurd List.nil_prefix hq
      | cons j q' =>
        rw [expand]
        cases hch : ch[j]? with
        | none =>
          rw [getNodeAt_cons_none p fe (s + r) (c + b) hc ch j q' hch,
            getNodeAt_cons_none p fe s c hc ch j q' hch]
        | some cj =>
          rw [getNodeAt_cons_some p fe (s + r) (c + b) hc ch j q' cj hch,
            getNodeAt_cons_some p fe s c hc ch j q' cj hch]
  | cons i rest ih =>
    intro t q hq
    cases t with
    | node p fe s c hc ch =>
      cases q with
      | nil => exact absurd List.nil_prefix hq
      | cons j q' =>
        rw [expand]
        cases hch : ch[i]? with
        | none =>
          cases hchj : ch[j]? with
          | none =>
            rw [getNodeAt_cons_none p fe (s + r) (c + b) hc ch j q' hchj,
              getNodeAt_cons_none p fe s c hc ch j q' hchj]
          | some cj =>
            rw [getNodeAt_cons_some p fe (s + r) (c + b) hc ch j q' cj hchj,
              getNodeAt_cons_some p fe s c hc ch j q' cj hchj]
        | some child =>
          by_cases hji : j = i
          · subst hji
            have hlt : j < ch.length := (List.getElem?_eq_some.1 hch).1
            rw [getNodeAt_cons_some p fe (s + r) (c + b) hc _ j q' (expand r b child rest)
              (List.getElem?_set_eq_of_lt (expand r b child rest) hlt)]
            rw [getNodeAt_cons_some p fe s c hc ch j q' child hch]
            refine ih child q' fun hpre => ?_
            exact hq (List.cons_prefix_cons.2 ⟨rfl, hpre⟩)
          · have hset : (ch.set i (expand r b child rest))[j]? = ch[j]? :=
              List.getElem?_set_ne fun h => hji h.symm
            cases hchj : ch[j]? with
            | none =>
              rw [getNodeAt_cons_none p fe (s + r) (c + b) hc _ j q' (by rw [hset, hchj]),
                getNodeAt_cons_none p fe s c hc ch j q' hchj]
            | some cj =>
              rw [getNodeAt_cons_some p fe (s + r) (c + b) hc _ j q' cj (by rw [hset, hchj]),
                getNodeAt_cons_some p fe s c hc ch j q' cj hchj]

/-- `RolloutNode.expand` preserves the tree invariant, provided every node
it touches (the nodes along the path, i.e. the chain of `parent` pointers
from the expanded node to the root) is not fully expanded. -/
theorem expand_inv (G : Game α) (r : ℚ) (b : ℕ) :
    ∀ (pth : List ℕ) (t : RTree α), TreeInv G t →
      (∀ q, q <+: pth → ∀ n, getNodeAt t q = some n → n.fullyExpanded = false) →
      TreeInv G (expand r b t pth) := by
  intro pth
  induction pth with
  | nil =>
    intro t hInv hpath
    cases hInv with
    | mk p fe s c hc ch h1 h2 h3 h4 h5 =>
      have hfeF : fe = false := by
        have h6 := hpath [] List.nil_prefix _ rfl
        simpa [fullyExpanded] using h6
      rw [expand]
      exact TreeInv.mk p fe (s + r) (c + b) hc ch h1
        (fun h => absurd h (by rw [hfeF]; simp))
        (fun hh => ⟨(h3 hh).1, fun h0 => (h3 hh).2 (add_eq_zero.1 h0).1⟩) h4 h5
  | cons i rest ih =>
    intro t hInv hpath
    cases hInv with
    | mk p fe s c hc ch h1 h2 h3 h4 h5 =>
      have hfeF : fe = false := by
        have h6 := hpath [] List.nil_prefix _ rfl
        simpa [fullyExpanded] using h6
      have hmid : TreeInv G (.node p fe (s + r) (c + b) hc ch) :=
        TreeInv.mk p fe (s + r) (c + b) hc ch h1
          (fun h => absurd h (by rw [hfeF]; simp))
          (fun hh => ⟨(h3 hh).1, fun h0 => (h3 hh).2 (add_eq_zero.1 h0).1⟩) h4 h5
      rw [expand]
      cases hch : ch[i]? with
      | none => exact hmid
      | some child =>
        have hchildInv : TreeInv G child := by
          obtain ⟨hlt, hget⟩ := List.getElem?_eq_some.1 hch
          have h6 := h5 i hlt
          rw [List.get_eq_getElem, hget] at h6
          exact h6
        have hchildPath : ∀ q, q <+: rest → ∀ n, getNodeAt child q = some n →
            n.fullyExpanded = false := by
          intro q hq n hn
          refine hpath (i :: q) (List.cons_prefix_cons.2 ⟨rfl, hq⟩) n ?_
          rw [getNodeAt_cons_some p fe s c hc ch i q child hch]
          exact hn
        exact setChild_inv G p fe (s + r) (c + b) hc ch i (expand r b child rest) child
          hmid hch (ih child hchildInv hchildPath) (expand_pos r b child rest)

/-- One driver iteration (select an expansion node, then expand it)
preserves the tree invariant and leaves every fully expanded subtree
untouched. -/
theorem mctsStep_preserves (f : ℕ∞ → ℕ∞ → ℚ) (G : Game α)
    (hwin : ∀ p, G.is_over p = true →
      G.get_winner p = -1 ∨ G.get_winner p = 0 ∨ G.get_winner p = 1)
    (hfin : ∀ p, ∃ v, MinimaxVal G p v)
    (fuel : ℕ) (r : ℚ) (b : ℕ) (t : RTree α) (hInv : TreeInv G t) :
    TreeInv G (mctsStep f G fuel r b t) ∧
    (∀ q n, getNodeAt t q = some n → n.fullyExpanded = true →
      getNodeAt (mctsStep f G fuel r b t) q = some n) := by
  rw [mctsStep]
  cases hce : choose_expansion_node f G fuel t with
  | none => exact ⟨hInv, fun q n hq _ => hq⟩
  | some res =>
    obtain ⟨t', op, fl⟩ := res
    obtain ⟨hInv', hpos', hpres', hpath'⟩ :=
      choose_expansion_preserves f G hwin hfin fuel t t' op fl hce hInv
    cases op with
    | none => exact ⟨hInv', hpres'⟩
    | some pth =>
      refine ⟨expand_inv G r b pth t' hInv' (hpath' pth rfl), ?_⟩
      intro q n hq hnfe
      have hq1 := hpres' q n hq hnfe
      have hnp : ¬(q <+: pth) := fun hpre => by
        have h6 := hpath' pth rfl q hpre n hq1
        rw [hnfe] at h6
        cases h6
      rw [expand_off_path r b pth t' q hnp]
      exact hq1

/-- Iterating the driver preserves the invariant and every fully expanded
subtree. -/
theorem runSteps_preserves (f : ℕ∞ → ℕ∞ → ℚ) (G : Game α)
    (hwin : ∀ p, G.is_over p = true →
      G.get_winner p = -1 ∨ G.get_winner p = 0 ∨ G.get_winner p = 1)
    (hfin : ∀ p, ∃ v, MinimaxVal G p v) :
    ∀ (steps : List (ℕ × ℚ × ℕ)) (t : RTree α), TreeInv G t →
      TreeInv G (runSteps f G steps t) ∧
      (∀ q n, getNodeAt t q = some n → n.fullyExpanded = true →
        getNodeAt (runSteps f G steps t) q = some n) := by
  intro steps
  induction steps with
  | nil =>
    intro t hInv
    exact ⟨hInv, fun q n hq _ => hq⟩
  | cons st rest ih =>
    intro t hInv
    obtain ⟨fuel, r, b⟩ := st
    obtain ⟨hInv1, hpres1⟩ := mctsStep_preserves f G hwin hfin fuel r b t hInv
    obtain ⟨hInv2, hpres2⟩ := ih (mctsStep f G fuel r b t) hInv1
    rw [runSteps]
    exact ⟨hInv2, fun q n hq hnfe => hpres2 q n (hpres1 q n hq hnfe) hnfe⟩

theorem get_evaluation_of_fe (t : RTree α) (hfe : t.fullyExpanded = true) :
    get_evaluation t = .ok t.rolloutSum := by
  rw [get_evaluation, if_pos hfe]

end RTree

namespace RTree

variable {α : Type}

theorem G2_win_range : ∀ p, G2.is_over p = true →
    G2.get_winner p = -1 ∨ G2.get_winner p = 0 ∨ G2.get_winner p = 1 :=
  fun _ _ => Or.inr (Or.inr rfl)

theorem G2_minimax_total : ∀ p, ∃ v, MinimaxVal G2 p v := by
  intro p
  by_cases hp : p = 0
  · subst hp
    refine ⟨1, MinimaxVal.maxNode 0 [1] 1 (by decide) rfl (by decide) ?_ (by decide)⟩
    intro i h1 h2
    have hi0 : i = 0 := Nat.lt_one_iff.1 (by simpa using h2)
    subst hi0
    exact MinimaxVal.term 1 (by decide)
  · exact ⟨G2.get_winner p, MinimaxVal.term p (decide_eq_true hp)⟩

theorem rRootEx_inv : TreeInv G2 rRootEx := by
  rw [rRootEx]
  refine TreeInv.mk 0 false 1 1 true _ (fun _ => by decide) (fun h => by cases h)
    (fun _ => ⟨by decide, by decide⟩) (fun h => by cases h) (fun i hi => ?_)
  have hi0 : i = 0 := Nat.lt_one_iff.1 (by simpa using hi)
  subst hi0
  exact TreeInv.mk 1 true 1 ⊤ false [] (fun h => by cases h)
    (fun _ => MinimaxVal.term 1 (by decide)) (fun h => by cases h) (fun _ => rfl)
    (fun j hj => absurd hj (by simp))

end RTree

/-- C3: in a search whose tree satisfies the reachability invariant, once a
node is fully expanded it is bit-for-bit untouched by any further driver
iterations (each being one `choose_expansion_node` call followed by the
`expand()` it requests): its `fully_expanded` flag never reverts, its
`get_evaluation()` (the stored `rollout_sum`) is never altered, and that
value is the exact minimax value of its position, lying in {-1, 0, 1}. -/
theorem RTree.solved_nodes_frozen (f : ℕ∞ → ℕ∞ → ℚ) {α : Type} (G : Game α)
    (hwin : ∀ p, G.is_over p = true →
      G.get_winner p = -1 ∨ G.get_winner p = 0 ∨ G.get_winner p = 1)
    (hfin : ∀ p, ∃ v, MinimaxVal G p v)
    (steps : List (ℕ × ℚ × ℕ)) (t : RTree α) (hInv : TreeInv G t)
    (q : List ℕ) (n : RTree α) (hq : RTree.getNodeAt t q = some n)
    (hfe : n.fullyExpanded = true) :
    RTree.getNodeAt (RTree.runSteps f G steps t) q = some n ∧
    n.fullyExpanded = true ∧
    RTree.get_evaluation n = .ok n.rolloutSum ∧
    MinimaxVal G n.pos n.rolloutSum ∧
    (n.rolloutSum = -1 ∨ n.rolloutSum = 0 ∨ n.rolloutSum = 1) := by
  have hnInv : TreeInv G n := RTree.getNodeAt_inv G q t n hInv hq
  have hmv : MinimaxVal G n.pos n.rolloutSum := RTree.treeInv_fe_minimax G n hnInv hfe
  exact ⟨(RTree.runSteps_preserves f G hwin hfin steps t hInv).2 q n hq hfe, hfe,
    RTree.get_evaluation_of_fe n hfe, hmv,
    minimaxVal_range G hwin n.pos n.rolloutSum hmv⟩

/-- Witness for `RTree.solved_nodes_frozen`: on the `G2` tree whose child is
solved, one driver iteration (which expands the root path) leaves the solved
child untouched, with its evaluation the exact minimax value 1. -/
theorem RTree.solved_nodes_frozen_witness :
    RTree.getNodeAt (RTree.runSteps (fun _ _ => 0) G2 [(2, 1, 1)] rRootEx) [0]
        = some (.node 1 true 1 ⊤ false []) ∧
    (RTree.node 1 true (1 : ℚ) ⊤ false ([] : List (RTree ℕ))).fullyExpanded = true ∧
    RTree.get_evaluation (RTree.node 1 true (1 : ℚ) ⊤ false ([] : List (RTree ℕ)))
        = .ok (RTree.node 1 true (1 : ℚ) ⊤ false ([] : List (RTree ℕ))).rolloutSum ∧
    MinimaxVal G2 (RTree.node 1 true (1 : ℚ) ⊤ false ([] : List (RTree ℕ))).pos
        (RTree.node 1 true (1 : ℚ) ⊤ false ([] : List (RTree ℕ))).rolloutSum ∧
    ((RTree.node 1 true (1 : ℚ) ⊤ false ([] : List (RTree ℕ))).rolloutSum = -1 ∨
      (RTree.node 1 true (1 : ℚ) ⊤ false ([] : List (RTree ℕ))).rolloutSum = 0 ∨
      (RTree.node 1 true (1 : ℚ) ⊤ false ([] : List (RTree ℕ))).rolloutSum = 1) :=
  RTree.solved_nodes_frozen (fun _ _ => 0) G2 RTree.G2_win_range RTree.G2_minimax_total
    [(2, 1, 1)] rRootEx RTree.rRootEx_inv [0] (.node 1 true 1 ⊤ false []) rfl rfl

namespace RTree

variable {α : Type}

theorem scan_all_fe (f : ℕ∞ → ℕ∞ → ℚ) (M : Bool) (sc : ℕ∞) (opt : ℚ) :
    ∀ (ch : List (RTree α)) (i : ℕ) (flag : Bool),
      (∀ x ∈ ch, x.fullyExpanded = true) →
      scanChildren f M sc opt i none flag ch = .solvedOptimal flag ∨
      scanChildren f M sc opt i none flag ch = .finished none flag := by
  intro ch
  induction ch with
  | nil =>
    intro i flag hall
    right
    rw [scanChildren]
    rfl
  | cons child rest ih =>
    intro i flag hall
    have hfe : child.fullyExpanded = true := hall child (List.mem_cons_self _ _)
    by_cases hopt : child.rolloutSum = opt
    · left
      rw [scanChildren, if_pos hfe, if_pos hopt]
    · rcases ih (i + 1) flag (fun x hx => hall x (List.mem_cons_of_mem _ hx)) with h | h
      · left
        rw [scanChildren, if_pos hfe, if_neg hopt]
        exact h
      · right
        rw [scanChildren, if_pos hfe, if_neg hopt]
        exact h

theorem treeInv_child_mem (G : Game α) (p : α) (fe : Bool) (s : ℚ) (c : ℕ∞)
    (hcb : Bool) (ch : List (RTree α)) (h : TreeInv G (.node p fe s c hcb ch))
    (x : RTree α) (hx : x ∈ ch) : TreeInv G x := by
  cases h with
  | mk p fe s c hcb ch h1 h2 h3 h4 h5 =>
    obtain ⟨⟨k, hk⟩, hget⟩ := List.mem_iff_get.1 hx
    have h6 := h5 k hk
    rw [hget] at h6
    exact h6

end RTree

/-- C4: for a node that is not fully expanded but whose children all are
(and that has been visited, has its children created, and sits on a
position with at least one move), a single call of the selection algorithm
marks the node fully expanded with value the max (when maximizing) or min
of the children's values, and reports `None` upward (at the root: no node
to expand, the tree is solved), with the division flag off. -/
theorem RTree.choose_expansion_marks_solved_node (f : ℕ∞ → ℕ∞ → ℚ) {α : Type}
    (G : Game α)
    (hwin : ∀ p, G.is_over p = true →
      G.get_winner p = -1 ∨ G.get_winner p = 0 ∨ G.get_winner p = 1)
    (t : RTree α) (hInv : TreeInv G t)
    (hfe : t.fullyExpanded = false) (hc0 : ¬(t.count_expansions = 0))
    (hhc : t.hasChildren = true) (hne : t.children ≠ [])
    (hall : ∀ x ∈ t.children, x.fullyExpanded = true) :
    RTree.choose_expansion_node f G 1 t
      = some (RTree.set_fully_expanded (RTree.minimaxOfChildren G t) t, none, false) := by
  cases t with
  | node p fe s c hcb ch =>
    simp only [RTree.children] at hne hall
    have hrange : ∀ x ∈ ch, x.rolloutSum = -1 ∨ x.rolloutSum = 0 ∨ x.rolloutSum = 1 := by
      intro x hx
      have hxInv := RTree.treeInv_child_mem G p fe s c hcb ch hInv x hx
      exact minimaxVal_range G hwin x.pos x.rolloutSum
        (RTree.treeInv_fe_minimax G x hxInv (hall x hx))
    rw [show (1 : ℕ) = 0 + 1 from rfl]
    rw [RTree.choose_expansion_node]
    rw [if_neg (by simp [hfe])]
    rw [if_neg hc0]
    rw [RTree.ensure_children_of_hasChildren G (RTree.node p fe s c hcb ch) hhc]
    simp only [RTree.pos, RTree.count_expansions, RTree.rolloutCount, RTree.children]
    rcases RTree.scan_all_fe f (G.is_player_1_turn p) c
        (if G.is_player_1_turn p then (1 : ℚ) else -1) ch 0 false hall with hscan | hscan
    · simp only [hscan]
      obtain ⟨cx, hcxm, hcxfe, hcxsum⟩ :=
        RTree.scan_solvedOptimal f (G.is_player_1_turn p) c _ ch 0 none false _ hscan
      have hmm : RTree.minimaxOfChildren G (RTree.node p fe s c hcb ch)
          = (if G.is_player_1_turn p then (1 : ℚ) else -1) := by
        rw [RTree.minimaxOfChildren]
        simp only [RTree.pos, RTree.children]
        cases hturn : G.is_player_1_turn p with
        | true =>
          have hsum1 : cx.rolloutSum = 1 := by
            rw [hturn] at hcxsum
            simpa using hcxsum
          have hmem : (1 : ℚ) ∈ ch.map RTree.rolloutSum :=
            List.mem_map.2 ⟨cx, hcxm, hsum1⟩
          have hub : ∀ x ∈ ch.map RTree.rolloutSum, x ≤ 1 := by
            intro x hx
            obtain ⟨y, hy, rfl⟩ := List.mem_map.1 hx
            rcases hrange y hy with h | h | h <;> rw [h] <;> norm_num
          have hpm := pyMax_eq_of_mem_le _ 1 hmem hub
          simp [hpm]
        | false =>
          have hsum1 : cx.rolloutSum = -1 := by
            rw [hturn] at hcxsum
            simpa using hcxsum
          have hmem : (-1 : ℚ) ∈ ch.map RTree.rolloutSum :=
            List.mem_map.2 ⟨cx, hcxm, hsum1⟩
          have hlb : ∀ x ∈ ch.map RTree.rolloutSum, -1 ≤ x := by
            intro x hx
            obtain ⟨y, hy, rfl⟩ := List.mem_map.1 hx
            rcases hrange y hy with h | h | h <;> rw [h] <;> norm_num
          have hpm := pyMin_eq_of_mem_le _ (-1) hmem hlb
          simp [hpm]
      rw [hmm]
    · simp only [hscan]
      rw [RTree.map_evalFlag_fst_of_all_fe ch hall]
      have hany : (ch.map RTree.evalFlag).any Prod.snd = false := by
        refine List.any_eq_false.2 fun x hx => ?_
        obtain ⟨c0, hc0m, rfl⟩ := List.mem_map.1 hx
        rw [RTree.evalFlag_of_fe c0 (hall c0 hc0m)]
        simp
      rw [hany]
      obtain ⟨v, vs, hl⟩ : ∃ v vs, ch.map RTree.rolloutSum = v :: vs := by
        cases hl : ch.map RTree.rolloutSum with
        | nil => exact absurd (List.map_eq_nil.1 hl) hne
        | cons v vs => exact ⟨v, vs, rfl⟩
      have hscr : (if G.is_player_1_turn p then pyMax (ch.map RTree.rolloutSum)
          else pyMin (ch.map RTree.rolloutSum))
          = some (RTree.minimaxOfChildren G (RTree.node p fe s c hcb ch)) := by
        rw [RTree.minimaxOfChildren]
        simp only [RTree.pos, RTree.children]
        rw [hl]
        cases hturn : G.is_player_1_turn p with
        | true =>
          rw [pyMax]
          simp
        | false =>
          rw [pyMin]
          simp
      rw [hscr]
      rfl

/-- Witness for `RTree.choose_expansion_marks_solved_node`: on the `G2` tree
whose single child is solved, one selection call marks the root solved with
the child's value and returns no expansion path. -/
theorem RTree.choose_expansion_marks_solved_node_witness :
    RTree.choose_expansion_node (fun _ _ => 0) G2 1 rRootEx
      = some (RTree.set_fully_expanded (RTree.minimaxOfChildren G2 rRootEx) rRootEx,
          none, false) :=
  RTree.choose_expansion_marks_solved_node (fun _ _ => 0) G2 RTree.G2_win_range rRootEx
    RTree.rRootEx_inv rfl (by decide) rfl (by simp [rRootEx, RTree.children])
    (by
      intro x hx
      simp only [rRootEx, RTree.children] at hx
      rw [List.mem_singleton] at hx
      subst hx
      rfl)
